import Mathlib

/-!
Verification of the `hit9/skiplist` Go package.

The Go source (a single file, `skiplist.go`) implements an in-memory
probabilistic skiplist over an `Item` interface providing a strict
less-than `Less`.  We embed it shallowly:

* pointers to nodes become indices into an `arena : List (Node α)`;
  a nil pointer is `none : Option Nat`;
* the head sentinel's forward array (`sl.head.forwards`) is kept as a
  separate field `headF` because the head carries no item;
* the `*rand.Rand` source is modelled by passing each `Put` the list of
  boolean outcomes of the Go trials
  `sl.rand.Int()&0xffff < int(FactorP*float64(0xffff))`
  (the only way the source is consumed); `randLevel` is a function of
  that list, exactly mirroring the Go loop;
* the reusable scratch buffer `sl.buf` is modelled as the local list
  the descent produces: the Go code resets it at the start of every
  `Put`/`Delete` and only ever reads the entries it has just written,
  so the observable state carries no buffer;
* `panic` (construction with `maxLevel < 2`) becomes `Option`;
  the nil-pointer dereference an exhausted iterator's `Next` performs
  becomes `none` in `IterNext`;
* unbounded `for` loops over the linked structure take explicit fuel
  `sl.arena.length + 1`; under the well-formedness invariant every
  reachable chain is duplicate-free and lies inside the arena, so the
  fuel is never exhausted.

`Int` is used for the `length` field (a Go `int`) so that decrements
are exact.
-/

namespace SkipVerify

/-- The contract the Go documentation states for `Item.Less`:
a strict order whose incomparability is transitive (a strict weak
order), so that `!a.Less(b) && !b.Less(a)` behaves as equality. -/
structure LawfulLess {α : Type} (lt : α → α → Bool) : Prop where
  irrefl : ∀ a, lt a a = false
  lt_trans : ∀ a b c, lt a b = true → lt b c = true → lt a c = true
  negTrans : ∀ a b c, lt a b = false → lt b c = false → lt a c = false

theorem LawfulLess.asymm {α : Type} {lt : α → α → Bool} (h : LawfulLess lt)
    {a b : α} (hab : lt a b = true) : lt b a = false := by
  by_contra hba
  have hba' : lt b a = true := by
    cases hv : lt b a with
    | false => exact absurd hv hba
    | true => rfl
  have := h.lt_trans a b a hab hba'
  rw [h.irrefl a] at this
  exact Bool.false_ne_true this

/-- `equal` from the source: `!item.Less(than) && !than.Less(item)`. -/
def equal {α : Type} (lt : α → α → Bool) (item than : α) : Bool :=
  !(lt item than) && !(lt than item)

/-- `node` from the source: one item plus per-level forward links.
A link `some j` is a pointer to arena slot `j`; `none` is Go `nil`. -/
structure Node (α : Type) where
  item : α
  forwards : List (Option Nat)
  deriving DecidableEq

/-- `SkipList` from the source.  `headF` is the head sentinel's
forward array (`head.forwards`), `arena` holds every node ever
allocated (a deleted node stays in the arena, unlinked, as a Go node
kept alive only until garbage collection — it is unreachable from the
head, so it does not affect any operation). -/
structure SkipList (α : Type) where
  length : Int
  level : Nat
  maxLevel : Nat
  headF : List (Option Nat)
  arena : List (Node α)
  deriving DecidableEq

/-- A traversal position: the head sentinel or a node (arena index). -/
inductive Pos where
  | head : Pos
  | node : Nat → Pos
  deriving DecidableEq

/-- The forward link of node `j` at level `i` (`n.forwards[i]`).
Reads outside the arena or outside the forward array yield `none`;
under well-formedness the code never performs such a read. -/
def nodeFwd {α : Type} (sl : SkipList α) (j i : Nat) : Option Nat :=
  match sl.arena.get? j with
  | none => none
  | some nd => nd.forwards.getD i none

/-- Forward link at level `i` from a position. -/
def fwd {α : Type} (sl : SkipList α) (p : Pos) (i : Nat) : Option Nat :=
  match p with
  | Pos.head => sl.headF.getD i none
  | Pos.node j => nodeFwd sl j i

/-- The item stored at arena slot `j` (`n.item`); `default` stands for
the unreachable dereference of an invalid pointer. -/
def itemAt {α : Type} [Inhabited α] (sl : SkipList α) (j : Nat) : α :=
  match sl.arena.get? j with
  | none => default
  | some nd => nd.item

/-- The height of the node at arena slot `j` (`len(n.forwards)`). -/
def heightOf {α : Type} (sl : SkipList α) (j : Nat) : Nat :=
  match sl.arena.get? j with
  | none => 0
  | some nd => nd.forwards.length

/-- The chain of nodes reached from `p` by following level-`i` links,
computed with fuel. -/
def chainFrom {α : Type} (sl : SkipList α) (i : Nat) : Nat → Pos → List Nat
  | 0, _ => []
  | fuel + 1, p =>
    match fwd sl p i with
    | none => []
    | some j => j :: chainFrom sl i fuel (Pos.node j)

/-- The full level-`i` chain from the head, with always-sufficient fuel. -/
def chainL {α : Type} (sl : SkipList α) (i : Nat) : List Nat :=
  chainFrom sl i (sl.arena.length + 1) Pos.head

/-- `IsChainFrom sl i p c`: following level-`i` links from `p` visits
exactly the arena slots `c` and then reaches nil. -/
inductive IsChainFrom {α : Type} (sl : SkipList α) (i : Nat) : Pos → List Nat → Prop
  | nil (p : Pos) : fwd sl p i = none → IsChainFrom sl i p []
  | cons {p : Pos} {j : Nat} {c : List Nat} :
      fwd sl p i = some j → IsChainFrom sl i (Pos.node j) c →
      IsChainFrom sl i p (j :: c)

/-- A finite link segment: from `p`, following level-`i` links visits
exactly `c` and ends at `q` (which is `p` itself when `c = []`). -/
inductive Seg {α : Type} (sl : SkipList α) (i : Nat) : Pos → List Nat → Pos → Prop
  | nil (p : Pos) : Seg sl i p [] p
  | cons {p : Pos} {j : Nat} {c : List Nat} {q : Pos} :
      fwd sl p i = some j → Seg sl i (Pos.node j) c q → Seg sl i p (j :: c) q

/-- The position reached after walking a list of nodes from `p`. -/
def posAfter (p : Pos) (c : List Nat) : Pos :=
  c.foldl (fun _ j => Pos.node j) p

/-- The items stored at a list of arena slots. -/
def itemsAt {α : Type} [Inhabited α] (sl : SkipList α) (c : List Nat) : List α :=
  c.map (itemAt sl)

/-- The items currently stored, in level-0 (sorted) order. -/
def contents {α : Type} [Inhabited α] (sl : SkipList α) : List α :=
  itemsAt sl (chainL sl 0)

/-- The inner loop of the shared descent:
`for n.forwards[i] != nil && n.forwards[i].item.Less(item) { n = n.forwards[i] }`. -/
def walk {α : Type} (lt : α → α → Bool) (sl : SkipList α) (x : α) (i : Nat) :
    Nat → Pos → Pos
  | 0, p => p
  | fuel + 1, p =>
    match fwd sl p i with
    | none => p
    | some j =>
      match sl.arena.get? j with
      | none => p
      | some nd => if lt nd.item x then walk lt sl x i fuel (Pos.node j) else p

/-- The shared descent `for i := sl.level - 1; i >= 0; i--`:
returns the final position and the `update` array (`update[i]` is the
node reached just before dropping below level `i`).  Called with
`k = sl.level` and `p = Pos.head`. -/
def descend {α : Type} (lt : α → α → Bool) (sl : SkipList α) (x : α) :
    Nat → Pos → Pos × List Pos
  | 0, p => (p, [])
  | k + 1, p =>
    let q := walk lt sl x k (sl.arena.length + 1) p
    let r := descend lt sl x k q
    (r.1, r.2 ++ [q])

/-- Overwrite the forward link of position `p` at level `i`
(`p.forwards[i] = v`).  An out-of-range write is a no-op; under
well-formedness the code only writes in range. -/
def setFwd {α : Type} (sl : SkipList α) (p : Pos) (i : Nat) (v : Option Nat) :
    SkipList α :=
  match p with
  | Pos.head => { sl with headF := sl.headF.set i v }
  | Pos.node j =>
    match sl.arena.get? j with
    | none => sl
    | some nd =>
      { sl with arena := sl.arena.set j { nd with forwards := nd.forwards.set i v } }

/-- `randLevel` from the source: start at 1, increment once per
successful trial, cap at `maxLevel`.  `flips` is the list of trial
outcomes drawn from the random source. -/
def randLevel (maxLevel : Nat) (flips : List Bool) : Nat :=
  let level := 1 + (flips.takeWhile id).length
  if level < maxLevel then level else maxLevel

/-- Reading the `update` scratch array: entries the descent has
written, `head` beyond them (the only out-of-descent entries the code
reads are those `Put` has just set to `sl.head`). -/
def updFn (upd : List Pos) : Nat → Pos := fun i =>
  if h : i < upd.length then upd.get ⟨i, h⟩ else Pos.head

/-- One iteration of the splice loop in `Put`:
`n.forwards[i] = update[i].forwards[i]; update[i].forwards[i] = n`. -/
def spliceStep {α : Type} (updAt : Nat → Pos) (j i : Nat) (s : SkipList α) :
    SkipList α :=
  let v := fwd s (updAt i) i
  let s1 := setFwd s (Pos.node j) i v
  setFwd s1 (updAt i) i (some j)

/-- The splice loop of `Put`, over the list of levels `0, …, lvl-1`. -/
def spliceLevels {α : Type} (updAt : Nat → Pos) (j : Nat) :
    List Nat → SkipList α → SkipList α
  | [], s => s
  | i :: is, s => spliceLevels updAt j is (spliceStep updAt j i s)

/-- `Put` with the new node's level already drawn (`level := sl.randLevel()`). -/
def putWithLevel {α : Type} (lt : α → α → Bool) (sl : SkipList α) (x : α)
    (lvl : Nat) : SkipList α :=
  let updAt : Nat → Pos := updFn (descend lt sl x sl.level Pos.head).2
  let sl1 : SkipList α :=
    { sl with level := if sl.level < lvl then lvl else sl.level }
  let j := sl1.arena.length
  let sl2 : SkipList α :=
    { sl1 with arena := sl1.arena ++ [{ item := x, forwards := List.replicate lvl none }] }
  let sl3 := spliceLevels updAt j (List.range lvl) sl2
  { sl3 with length := sl3.length + 1 }

/-- `Put` from the source; `flips` models the draws from `sl.rand`. -/
def Put {α : Type} (lt : α → α → Bool) (sl : SkipList α) (x : α)
    (flips : List Bool) : SkipList α :=
  putWithLevel lt sl x (randLevel sl.maxLevel flips)

/-- `Get` from the source: descend, step to `n.forwards[0]`, return the
item if the node exists and compares equal. -/
def Get {α : Type} [Inhabited α] (lt : α → α → Bool) (sl : SkipList α) (x : α) :
    Option α :=
  match fwd sl (descend lt sl x sl.level Pos.head).1 0 with
  | none => none
  | some j => if equal lt (itemAt sl j) x then some (itemAt sl j) else none

/-- `Has` from the source. -/
def Has {α : Type} [Inhabited α] (lt : α → α → Bool) (sl : SkipList α) (x : α) :
    Bool :=
  (Get lt sl x).isSome

/-- One iteration of the unlink loop in `Delete`:
`if update[i].forwards[i] == n { update[i].forwards[i] = n.forwards[i] }`.
Pointer equality of nodes is equality of arena indices. -/
def unlinkStep {α : Type} (updAt : Nat → Pos) (j i : Nat) (s : SkipList α) :
    SkipList α :=
  if fwd s (updAt i) i = some j then setFwd s (updAt i) i (nodeFwd s j i) else s

/-- The unlink loop of `Delete`, over levels `0, …, sl.level-1`. -/
def unlinkLevels {α : Type} (updAt : Nat → Pos) (j : Nat) :
    List Nat → SkipList α → SkipList α
  | [], s => s
  | i :: is, s => unlinkLevels updAt j is (unlinkStep updAt j i s)

/-- The level-shrink loop shared by `Delete` and `PopFirst`:
`for sl.level > 1 && head.forwards[sl.level-1] == nil { sl.level-- }`. -/
def shrinkLevel (hf : List (Option Nat)) : Nat → Nat
  | 0 => 0
  | 1 => 1
  | l + 2 => if hf.getD (l + 1) none = none then shrinkLevel hf (l + 1) else l + 2

/-- The state of `Delete` after its unlink loop, given the node `j`
being removed (`update` is the descent's array). -/
def delState {α : Type} [Inhabited α] (lt : α → α → Bool) (sl : SkipList α)
    (x : α) (j : Nat) : SkipList α :=
  unlinkLevels (updFn (descend lt sl x sl.level Pos.head).2) j
    (List.range sl.level) sl

/-- `Delete` from the source: descend recording the update array,
check `n.forwards[0]`, unlink at every level whose update entry points
at the node, shrink the level, decrement the length. -/
def Delete {α : Type} [Inhabited α] (lt : α → α → Bool) (sl : SkipList α)
    (x : α) : Option α × SkipList α :=
  match fwd sl (descend lt sl x sl.level Pos.head).1 0 with
  | none => (none, sl)
  | some j =>
    if equal lt (itemAt sl j) x then
      (some (itemAt sl j),
        { delState lt sl x j with
          level := shrinkLevel (delState lt sl x j).headF (delState lt sl x j).level,
          length := (delState lt sl x j).length - 1 })
    else (none, sl)

/-- `First` from the source.  On a non-empty list it reads
`sl.head.forwards[0].item`; the `none` branch of the `map` is the
unreachable nil dereference. -/
def First {α : Type} [Inhabited α] (sl : SkipList α) : Option α :=
  if sl.length = 0 then none else (fwd sl Pos.head 0).map (itemAt sl)

/-- The release loop of `PopFirst`, over levels `sl.level-1, …, 0`:
`if sl.head.forwards[i] == n { sl.head.forwards[i] = n.forwards[i] }`. -/
def popLoop {α : Type} (j : Nat) : List Nat → SkipList α → SkipList α
  | [], s => s
  | i :: is, s =>
    popLoop j is
      (if fwd s Pos.head i = some j then setFwd s Pos.head i (nodeFwd s j i) else s)

/-- `PopFirst` from the source.  The inner `none` branch is the
unreachable nil dereference of `sl.head.forwards[0]` when the length
counter is nonzero but the chain is empty. -/
def PopFirst {α : Type} [Inhabited α] (sl : SkipList α) : Option α × SkipList α :=
  if sl.length = 0 then (none, sl)
  else
    match fwd sl Pos.head 0 with
    | none => (none, sl)
    | some j =>
      (some (itemAt sl j),
        { popLoop j (List.range sl.level).reverse sl with
          level := shrinkLevel (popLoop j (List.range sl.level).reverse sl).headF
            (popLoop j (List.range sl.level).reverse sl).level,
          length := (popLoop j (List.range sl.level).reverse sl).length - 1 })

/-- The loop body of `Clear`: `for sl.PopFirst() != nil {}`, with fuel
(one successful pop per unit; `sl.length.toNat + 1` always suffices). -/
def clearFuel {α : Type} [Inhabited α] (sl : SkipList α) : Nat → SkipList α
  | 0 => sl
  | fuel + 1 =>
    match PopFirst sl with
    | (none, s) => s
    | (some _, s) => clearFuel s fuel

/-- `Clear` from the source. -/
def Clear {α : Type} [Inhabited α] (sl : SkipList α) : SkipList α :=
  clearFuel sl (sl.length.toNat + 1)

/-- The empty skiplist the constructor builds: zero length, level 0
(the Go zero value), head forwards all nil. -/
def mkSkipList {α : Type} (maxLevel : Nat) : SkipList α :=
  { length := 0, level := 0, maxLevel := maxLevel,
    headF := List.replicate maxLevel none, arena := [] }

/-- `NewWithRandSeed` from the source: `panic` (modelled as `none`)
when `maxLevel < 2`, otherwise a fresh empty skiplist.  The seed only
initialises the random source, which we model at each `Put` call, so
it does not appear in the state. -/
def NewWithRandSeed {α : Type} (maxLevel : Nat) (seed : Int) : Option (SkipList α) :=
  if maxLevel < 2 then none else some (mkSkipList maxLevel)

/-- `New` from the source (time-derived seed; any seed yields the same
model state). -/
def New {α : Type} (maxLevel : Nat) : Option (SkipList α) :=
  NewWithRandSeed maxLevel 0

/-- `Iterator` from the source: a cursor that is either the head, a
node, or Go `nil` (after exhaustion). -/
structure Iterator where
  pos : Option Pos
  deriving DecidableEq

/-- `NewIterator` from the source: with no start bound the cursor is
the head; with a bound the cursor is the descent's final position. -/
def NewIterator {α : Type} (lt : α → α → Bool) (sl : SkipList α)
    (start : Option α) : Iterator :=
  match start with
  | none => ⟨some Pos.head⟩
  | some x => ⟨some (descend lt sl x sl.level Pos.head).1⟩

/-- `Iterator.Next` from the source: `iter.n = iter.n.forwards[0];
return iter.n != nil`.  A call on an already-nil cursor dereferences
nil and panics at runtime; that fault is modelled as `none`. -/
def IterNext {α : Type} (sl : SkipList α) (it : Iterator) :
    Option (Bool × Iterator) :=
  match it.pos with
  | none => none
  | some p =>
    match fwd sl p 0 with
    | none => some (false, ⟨none⟩)
    | some j => some (true, ⟨some (Pos.node j)⟩)

/-- `Iterator.Item` from the source (`iter.n.item`); `default` stands
for the nil item of the head sentinel / a nil dereference. -/
def IterItem {α : Type} [Inhabited α] (sl : SkipList α) (it : Iterator) : α :=
  match it.pos with
  | some (Pos.node j) => itemAt sl j
  | _ => default

/-- Run the idiomatic `for iter.Next() { iter.Item() }` loop with fuel,
collecting the produced items; the boolean records whether the loop
ended because `Next` returned `false` (clean exhaustion) rather than
by fuel running out or a nil-cursor fault. -/
def iterateAux {α : Type} [Inhabited α] (sl : SkipList α) :
    Nat → Iterator → List α × Bool
  | 0, _ => ([], false)
  | fuel + 1, it =>
    match IterNext sl it with
    | none => ([], false)
    | some (false, _) => ([], true)
    | some (true, it') =>
      let r := iterateAux sl fuel it'
      (IterItem sl it' :: r.1, r.2)

/-- All items produced by a fresh iterator with the given start bound. -/
def iterItems {α : Type} [Inhabited α] (lt : α → α → Bool) (sl : SkipList α)
    (start : Option α) : List α × Bool :=
  iterateAux sl (sl.arena.length + 1) (NewIterator lt sl start)

/-- Well-formedness: the shape every skiplist reachable through the
public API satisfies. -/
structure Wf {α : Type} [Inhabited α] (lt : α → α → Bool) (sl : SkipList α) : Prop where
  headLen : sl.headF.length = sl.maxLevel
  maxOk : 2 ≤ sl.maxLevel
  levelLe : sl.level ≤ sl.maxLevel
  above : ∀ i, sl.level ≤ i → fwd sl Pos.head i = none
  minLvl : 2 ≤ sl.level → fwd sl Pos.head (sl.level - 1) ≠ none
  chains : ∀ i, IsChainFrom sl i Pos.head (chainL sl i)
  valid : ∀ j ∈ chainL sl 0, j < sl.arena.length
  nested : ∀ i, chainL sl i = (chainL sl 0).filter (fun j => decide (i < heightOf sl j))
  sorted : List.Pairwise (fun a b => lt (itemAt sl b) (itemAt sl a) = false) (chainL sl 0)
  lenEq : sl.length = ((chainL sl 0).length : Int)

/-- The states reachable through the public API from a fresh instance. -/
inductive Reachable {α : Type} [Inhabited α] (lt : α → α → Bool) : SkipList α → Prop
  | new {m : Nat} {seed : Int} {sl0 : SkipList α} :
      NewWithRandSeed m seed = some sl0 → Reachable lt sl0
  | put {sl : SkipList α} (x : α) (flips : List Bool) :
      Reachable lt sl → Reachable lt (Put lt sl x flips)
  | del {sl : SkipList α} (x : α) :
      Reachable lt sl → Reachable lt (Delete lt sl x).2
  | pop {sl : SkipList α} :
      Reachable lt sl → Reachable lt (PopFirst sl).2
  | clear {sl : SkipList α} :
      Reachable lt sl → Reachable lt (Clear sl)

/-! ### Basic chain machinery -/

theorem posAfter_nil (p : Pos) : posAfter p [] = p := rfl

theorem posAfter_cons (p : Pos) (j : Nat) (c : List Nat) :
    posAfter p (j :: c) = posAfter (Pos.node j) c := rfl

theorem posAfter_append (p : Pos) (a b : List Nat) :
    posAfter p (a ++ b) = posAfter (posAfter p a) b := by
  simp [posAfter, List.foldl_append]

theorem posAfter_concat (p : Pos) (c : List Nat) (m : Nat) :
    posAfter p (c ++ [m]) = Pos.node m := by
  simp [posAfter, List.foldl_append]

theorem isChainFrom_det {α : Type} {sl : SkipList α} {i : Nat} {p : Pos}
    {c c' : List Nat} (h : IsChainFrom sl i p c) (h' : IsChainFrom sl i p c') :
    c = c' := by
  induction h generalizing c' with
  | nil p hn =>
    cases h' with
    | nil => rfl
    | cons hf _ => rw [hn] at hf; cases hf
  | cons hf _ ih =>
    cases h' with
    | nil _ hn => rw [hn] at hf; cases hf
    | cons hf' hc' =>
      rw [hf] at hf'
      cases hf'
      rw [ih hc']

theorem isChainFrom_drop {α : Type} {sl : SkipList α} {i : Nat} {a b : List Nat} :
    ∀ {p : Pos}, IsChainFrom sl i p (a ++ b) → IsChainFrom sl i (posAfter p a) b := by
  induction a with
  | nil => intro p h; exact h
  | cons j a' ih =>
    intro p h
    cases h with
    | cons hf hc => exact ih hc

theorem isChainFrom_nodup {α : Type} {sl : SkipList α} {i : Nat} {p : Pos}
    {c : List Nat} (h : IsChainFrom sl i p c) : c.Nodup := by
  induction h with
  | nil => exact List.nodup_nil
  | @cons p j c hf hc ih =>
    refine List.Nodup.cons ?_ ih
    intro hmem
    rcases List.append_of_mem hmem with ⟨s, t, hst⟩
    subst hst
    have h1 : IsChainFrom sl i (posAfter (Pos.node j) (s ++ [j])) t := by
      apply isChainFrom_drop
      simpa using hc
    rw [posAfter_concat] at h1
    have h2 := isChainFrom_det hc h1
    have h3 := congrArg List.length h2
    simp at h3
    omega

theorem chainFrom_eq {α : Type} {sl : SkipList α} {i : Nat} {p : Pos}
    {c : List Nat} (h : IsChainFrom sl i p c) :
    ∀ {fuel : Nat}, c.length < fuel → chainFrom sl i fuel p = c := by
  induction h with
  | nil p hn =>
    intro fuel hf
    match fuel, hf with
    | fuel + 1, _ => simp [chainFrom, hn]
  | cons hf hc ih =>
    intro fuel hfuel
    match fuel, hfuel with
    | fuel + 1, hfuel =>
      simp only [chainFrom, hf]
      rw [ih (by simpa using Nat.lt_of_succ_lt_succ hfuel)]

theorem isChainFrom_congr {α : Type} {s1 s2 : SkipList α} {i : Nat} {p : Pos}
    {c : List Nat} (h : IsChainFrom s1 i p c)
    (hp : fwd s2 p i = fwd s1 p i)
    (hc : ∀ j ∈ c, fwd s2 (Pos.node j) i = fwd s1 (Pos.node j) i) :
    IsChainFrom s2 i p c := by
  induction h with
  | nil p hn => exact IsChainFrom.nil p (hp.trans hn)
  | cons hf hcc ih =>
    refine IsChainFrom.cons (hp.trans hf) (ih ?_ ?_)
    · exact hc _ (List.mem_cons_self _ _)
    · intro j hj; exact hc j (List.mem_cons_of_mem _ hj)

theorem seg_of_chain {α : Type} {sl : SkipList α} {i : Nat} {a b : List Nat} :
    ∀ {p : Pos}, IsChainFrom sl i p (a ++ b) → Seg sl i p a (posAfter p a) := by
  induction a with
  | nil => intro p _; exact Seg.nil p
  | cons j a' ih =>
    intro p h
    cases h with
    | cons hf hc => exact Seg.cons hf (ih hc)

theorem chain_of_seg {α : Type} {sl : SkipList α} {i : Nat} {p q : Pos}
    {a b : List Nat} (hs : Seg sl i p a q) (hb : IsChainFrom sl i q b) :
    IsChainFrom sl i p (a ++ b) := by
  induction hs with
  | nil => exact hb
  | cons hf _ ih => exact IsChainFrom.cons hf (ih hb)

theorem seg_snoc {α : Type} {sl : SkipList α} {i : Nat} {p q : Pos}
    {a : List Nat} {j : Nat} (hs : Seg sl i p a q) (hf : fwd sl q i = some j) :
    Seg sl i p (a ++ [j]) (Pos.node j) := by
  induction hs with
  | nil p => exact Seg.cons hf (Seg.nil _)
  | cons hf' _ ih => exact Seg.cons hf' (ih hf)

theorem seg_last {α : Type} {sl : SkipList α} {i : Nat} {p q : Pos}
    {a : List Nat} (hs : Seg sl i p a q) : q = posAfter p a := by
  induction hs with
  | nil => rfl
  | cons _ _ ih => simpa [posAfter_cons] using ih

theorem seg_congr {α : Type} {s1 s2 : SkipList α} {i : Nat} {p q : Pos}
    {a : List Nat} (hs : Seg s1 i p a q)
    (hp : a ≠ [] → fwd s2 p i = fwd s1 p i)
    (hc : ∀ m ∈ a.dropLast, fwd s2 (Pos.node m) i = fwd s1 (Pos.node m) i) :
    Seg s2 i p a q := by
  induction hs with
  | nil p => exact Seg.nil p
  | @cons p j c q hf hrest ih =>
    refine Seg.cons ((hp (by simp)).trans hf) ?_
    cases c with
    | nil => cases hrest; exact Seg.nil _
    | cons c0 cs =>
      refine ih ?_ ?_
      · intro _
        exact hc j (by simp [List.dropLast_cons₂])
      · intro m hm
        exact hc m (by simp [List.dropLast_cons₂, hm])

theorem length_le_of_nodup_lt {c : List Nat} {n : Nat} (hnd : c.Nodup)
    (hv : ∀ j ∈ c, j < n) : c.length ≤ n := by
  have hsub : c ⊆ List.range n := fun j hj => List.mem_range.mpr (hv j hj)
  simpa using (hnd.subperm hsub).length_le

/-! ### `setFwd` characterization -/

/-- Whether a `setFwd` write at `(p, i)` actually lands (the Go code
would otherwise panic on an out-of-range index). -/
def setInRange {α : Type} (s : SkipList α) (p : Pos) (i : Nat) : Bool :=
  match p with
  | Pos.head => decide (i < s.headF.length)
  | Pos.node j =>
    match s.arena.get? j with
    | none => false
    | some nd => decide (i < nd.forwards.length)

theorem getD_set_opt : ∀ (l : List (Option Nat)) (i k : Nat) (v : Option Nat),
    (l.set i v).getD k none = if k = i ∧ i < l.length then v else l.getD k none := by
  intro l
  induction l with
  | nil => intro i k v; simp [List.set]
  | cons a l ih =>
    intro i k v
    cases i with
    | zero =>
      cases k with
      | zero => simp
      | succ k => simp
    | succ i =>
      cases k with
      | zero => simp
      | succ k =>
        have hset : (a :: l).set (i + 1) v = a :: l.set i v := rfl
        rw [hset, List.getD_cons_succ, List.getD_cons_succ, ih i k v]
        have hiff : (k + 1 = i + 1 ∧ i + 1 < (a :: l).length) ↔ (k = i ∧ i < l.length) := by
          simp [Nat.succ_lt_succ_iff]
        rw [if_congr hiff rfl rfl]

theorem fwd_setFwd {α : Type} (s : SkipList α) (p q : Pos) (i i' : Nat)
    (v : Option Nat) :
    fwd (setFwd s p i v) q i' =
      if q = p ∧ i' = i ∧ setInRange s p i = true then v else fwd s q i' := by
  cases p with
  | head =>
    cases q with
    | head =>
      show (s.headF.set i v).getD i' none = _
      rw [getD_set_opt]
      simp only [setInRange, fwd]
      by_cases h1 : i' = i
      · subst h1
        by_cases h2 : i' < s.headF.length
        · simp [h2]
        · simp [h2]
      · simp [h1]
    | node j => simp [setFwd, fwd, nodeFwd]
  | node m =>
    cases hm : s.arena.get? m with
    | none =>
      have hset : setFwd s (Pos.node m) i v = s := by
        simp only [setFwd]
        rw [hm]
      have hr : setInRange s (Pos.node m) i = false := by
        simp only [setInRange]
        rw [hm]
      rw [hset, hr]
      simp
    | some nd =>
      have hset : setFwd s (Pos.node m) i v =
          { s with arena := s.arena.set m { nd with forwards := nd.forwards.set i v } } := by
        simp only [setFwd]
        rw [hm]
      have hr : setInRange s (Pos.node m) i = decide (i < nd.forwards.length) := by
        simp only [setInRange]
        rw [hm]
      rw [hset, hr]
      cases q with
      | head => simp [fwd]
      | node j' =>
        simp only [fwd, nodeFwd]
        rw [List.get?_set]
        by_cases hjm : m = j'
        · subst hjm
          rw [if_pos rfl, hm]
          show (nd.forwards.set i v).getD i' none = _
          rw [getD_set_opt]
          by_cases h1 : i' = i
          · subst h1
            by_cases h2 : i' < nd.forwards.length
            · simp [h2]
            · simp [h2]
          · simp [h1]
        · rw [if_neg hjm]
          have hne : ¬ (Pos.node j' = Pos.node m) := by
            intro hcon; cases hcon; exact hjm rfl
          simp [hne]

theorem setFwd_length {α : Type} (s : SkipList α) (p : Pos) (i : Nat)
    (v : Option Nat) : (setFwd s p i v).length = s.length := by
  cases p with
  | head => rfl
  | node j => simp only [setFwd]; cases s.arena.get? j <;> rfl

theorem setFwd_level {α : Type} (s : SkipList α) (p : Pos) (i : Nat)
    (v : Option Nat) : (setFwd s p i v).level = s.level := by
  cases p with
  | head => rfl
  | node j => simp only [setFwd]; cases s.arena.get? j <;> rfl

theorem setFwd_maxLevel {α : Type} (s : SkipList α) (p : Pos) (i : Nat)
    (v : Option Nat) : (setFwd s p i v).maxLevel = s.maxLevel := by
  cases p with
  | head => rfl
  | node j => simp only [setFwd]; cases s.arena.get? j <;> rfl

theorem setFwd_arenaLen {α : Type} (s : SkipList α) (p : Pos) (i : Nat)
    (v : Option Nat) : (setFwd s p i v).arena.length = s.arena.length := by
  cases p with
  | head => rfl
  | node j =>
    simp only [setFwd]
    cases s.arena.get? j with
    | none => rfl
    | some nd => simp

theorem setFwd_headFLen {α : Type} (s : SkipList α) (p : Pos) (i : Nat)
    (v : Option Nat) : (setFwd s p i v).headF.length = s.headF.length := by
  cases p with
  | head => simp [setFwd]
  | node j => simp only [setFwd]; cases s.arena.get? j <;> rfl

theorem itemAt_setFwd {α : Type} [Inhabited α] (s : SkipList α) (p : Pos)
    (i : Nat) (v : Option Nat) (j : Nat) :
    itemAt (setFwd s p i v) j = itemAt s j := by
  cases p with
  | head => rfl
  | node m =>
    cases hm : s.arena.get? m with
    | none =>
      have hset : setFwd s (Pos.node m) i v = s := by
        simp only [setFwd]
        rw [hm]
      rw [hset]
    | some nd =>
      have hset : setFwd s (Pos.node m) i v =
          { s with arena := s.arena.set m { nd with forwards := nd.forwards.set i v } } := by
        simp only [setFwd]
        rw [hm]
      rw [hset]
      simp only [itemAt]
      rw [List.get?_set]
      by_cases hjm : m = j
      · subst hjm
        rw [if_pos rfl, hm]
        rfl
      · rw [if_neg hjm]

theorem heightOf_setFwd {α : Type} (s : SkipList α) (p : Pos) (i : Nat)
    (v : Option Nat) (j : Nat) :
    heightOf (setFwd s p i v) j = heightOf s j := by
  cases p with
  | head => rfl
  | node m =>
    cases hm : s.arena.get? m with
    | none =>
      have hset : setFwd s (Pos.node m) i v = s := by
        simp only [setFwd]
        rw [hm]
      rw [hset]
    | some nd =>
      have hset : setFwd s (Pos.node m) i v =
          { s with arena := s.arena.set m { nd with forwards := nd.forwards.set i v } } := by
        simp only [setFwd]
        rw [hm]
      rw [hset]
      simp only [heightOf]
      rw [List.get?_set]
      by_cases hjm : m = j
      · subst hjm
        rw [if_pos rfl, hm]
        simp
      · rw [if_neg hjm]

/-! ### Well-formedness consequences -/

theorem isChainFrom_head? {α : Type} {sl : SkipList α} {i : Nat} {p : Pos}
    {c : List Nat} (h : IsChainFrom sl i p c) : fwd sl p i = c.head? := by
  cases h with
  | nil _ hn => simpa using hn
  | cons hf _ => simpa using hf

theorem wf_chain_empty_above {α : Type} [Inhabited α] {lt : α → α → Bool}
    {sl : SkipList α} (hw : Wf lt sl) {i : Nat} (hi : sl.level ≤ i) :
    chainL sl i = [] :=
  isChainFrom_det (hw.chains i) (IsChainFrom.nil _ (hw.above i hi))

theorem wf_nodup {α : Type} [Inhabited α] {lt : α → α → Bool}
    {sl : SkipList α} (hw : Wf lt sl) (i : Nat) : (chainL sl i).Nodup :=
  isChainFrom_nodup (hw.chains i)

theorem wf_chain0_len_le {α : Type} [Inhabited α] {lt : α → α → Bool}
    {sl : SkipList α} (hw : Wf lt sl) : (chainL sl 0).length ≤ sl.arena.length :=
  length_le_of_nodup_lt (wf_nodup hw 0) hw.valid

theorem wf_mem_chain0 {α : Type} [Inhabited α] {lt : α → α → Bool}
    {sl : SkipList α} (hw : Wf lt sl) {i j : Nat} (hj : j ∈ chainL sl i) :
    j ∈ chainL sl 0 := by
  rw [hw.nested i] at hj
  exact (List.mem_filter.mp hj).1

theorem wf_height_gt {α : Type} [Inhabited α] {lt : α → α → Bool}
    {sl : SkipList α} (hw : Wf lt sl) {i j : Nat} (hj : j ∈ chainL sl i) :
    i < heightOf sl j := by
  rw [hw.nested i] at hj
  simpa using (List.mem_filter.mp hj).2

theorem wf_valid_chain {α : Type} [Inhabited α] {lt : α → α → Bool}
    {sl : SkipList α} (hw : Wf lt sl) {i : Nat} :
    ∀ j ∈ chainL sl i, j < sl.arena.length :=
  fun j hj => hw.valid j (wf_mem_chain0 hw hj)

theorem wf_chain_len_le {α : Type} [Inhabited α] {lt : α → α → Bool}
    {sl : SkipList α} (hw : Wf lt sl) (i : Nat) :
    (chainL sl i).length ≤ sl.arena.length :=
  length_le_of_nodup_lt (wf_nodup hw i) (wf_valid_chain hw)

theorem wf_height_le_level {α : Type} [Inhabited α] {lt : α → α → Bool}
    {sl : SkipList α} (hw : Wf lt sl) {j : Nat} (hj : j ∈ chainL sl 0) :
    heightOf sl j ≤ sl.level := by
  by_contra hcon
  have h1 : sl.level ≤ heightOf sl j - 1 := by omega
  have h2 : chainL sl (heightOf sl j - 1) = [] := wf_chain_empty_above hw h1
  have h3 : j ∈ chainL sl (heightOf sl j - 1) := by
    rw [hw.nested]
    refine List.mem_filter.mpr ⟨hj, by simp; omega⟩
  rw [h2] at h3
  cases h3

theorem wf_pairwise_chain {α : Type} [Inhabited α] {lt : α → α → Bool}
    {sl : SkipList α} (hw : Wf lt sl) (i : Nat) :
    List.Pairwise (fun a b => lt (itemAt sl b) (itemAt sl a) = false) (chainL sl i) := by
  refine List.Pairwise.sublist ?_ hw.sorted
  rw [hw.nested i]
  exact List.filter_sublist _

theorem wf_chain_of_le {α : Type} [Inhabited α] {lt : α → α → Bool}
    {sl : SkipList α} (hw : Wf lt sl) {k i : Nat} (hki : k ≤ i) :
    chainL sl i = (chainL sl k).filter (fun j => decide (i < heightOf sl j)) := by
  rw [hw.nested i, hw.nested k, List.filter_filter]
  refine List.filter_congr ?_
  intro j _
  by_cases h : i < heightOf sl j
  · simp [h]; omega
  · simp [h]

/-! ### Take/drop helpers for sorted chains -/

theorem takeWhile_append_all {β : Type} (P : β → Bool) (l₁ l₂ : List β)
    (h1 : ∀ e ∈ l₁, P e = true) :
    (l₁ ++ l₂).takeWhile P = l₁ ++ l₂.takeWhile P := by
  induction l₁ with
  | nil => rfl
  | cons a l ih =>
    have ha := h1 a (List.mem_cons_self a l)
    rw [List.cons_append, List.takeWhile_cons, if_pos ha,
      ih (fun e he => h1 e (List.mem_cons_of_mem a he)), List.cons_append]

theorem dropWhile_append_all {β : Type} (P : β → Bool) (l₁ l₂ : List β)
    (h1 : ∀ e ∈ l₁, P e = true) :
    (l₁ ++ l₂).dropWhile P = l₂.dropWhile P := by
  induction l₁ with
  | nil => rfl
  | cons a l ih =>
    have ha := h1 a (List.mem_cons_self a l)
    rw [List.cons_append, List.dropWhile_cons, if_pos ha]
    exact ih (fun e he => h1 e (List.mem_cons_of_mem a he))

theorem takeWhile_all_false {β : Type} (P : β → Bool) (l : List β)
    (h : ∀ e ∈ l, P e = false) : l.takeWhile P = [] := by
  cases l with
  | nil => rfl
  | cons a l =>
    have := h a (List.mem_cons_self a l)
    simp [List.takeWhile_cons, this]

theorem dropWhile_all_false {β : Type} (P : β → Bool) (l : List β)
    (h : ∀ e ∈ l, P e = false) : l.dropWhile P = l := by
  cases l with
  | nil => rfl
  | cons a l =>
    have := h a (List.mem_cons_self a l)
    simp [List.dropWhile_cons, this]

theorem takeWhile_split {β : Type} (P : β → Bool) (l₁ l₂ : List β)
    (h1 : ∀ e ∈ l₁, P e = true) (h2 : ∀ e ∈ l₂, P e = false) :
    (l₁ ++ l₂).takeWhile P = l₁ ∧ (l₁ ++ l₂).dropWhile P = l₂ := by
  constructor
  · rw [takeWhile_append_all P l₁ l₂ h1, takeWhile_all_false P l₂ h2, List.append_nil]
  · rw [dropWhile_append_all P l₁ l₂ h1, dropWhile_all_false P l₂ h2]

/-- Every element of the dropped suffix of a sorted chain fails the
"item is below `x`" test. -/
theorem sorted_dropWhile_false {α : Type} [Inhabited α] {lt : α → α → Bool}
    (hl : LawfulLess lt) {sl : SkipList α} {x : α} :
    ∀ {c : List Nat},
      List.Pairwise (fun a b => lt (itemAt sl b) (itemAt sl a) = false) c →
      ∀ j ∈ c.dropWhile (fun j => lt (itemAt sl j) x), lt (itemAt sl j) x = false := by
  intro c
  induction c with
  | nil => intro _ j hj; cases hj
  | cons a c ih =>
    intro hp j hj
    rw [List.dropWhile_cons] at hj
    by_cases ha : lt (itemAt sl a) x = true
    · rw [if_pos ha] at hj
      exact ih hp.tail j hj
    · have ha' : lt (itemAt sl a) x = false := by
        cases hv : lt (itemAt sl a) x with
        | false => rfl
        | true => exact absurd hv ha
      rw [if_neg ha] at hj
      rcases List.mem_cons.mp hj with rfl | hjc
      · exact ha'
      · exact hl.negTrans _ _ _ (List.rel_of_pairwise_cons hp hjc) ha'

/-- `takeWhile`/`dropWhile` below `x` commute with the height filter
on a sorted well-formed chain. -/
theorem wf_takeWhile_filter {α : Type} [Inhabited α] {lt : α → α → Bool}
    (hl : LawfulLess lt) {sl : SkipList α} (hw : Wf lt sl) (x : α) (i : Nat) :
    (chainL sl i).takeWhile (fun j => lt (itemAt sl j) x)
      = ((chainL sl 0).takeWhile (fun j => lt (itemAt sl j) x)).filter
          (fun j => decide (i < heightOf sl j))
    ∧ (chainL sl i).dropWhile (fun j => lt (itemAt sl j) x)
      = ((chainL sl 0).dropWhile (fun j => lt (itemAt sl j) x)).filter
          (fun j => decide (i < heightOf sl j)) := by
  have hsplit := List.takeWhile_append_dropWhile
    (fun j => lt (itemAt sl j) x) (chainL sl 0)
  have h1 : ∀ e ∈ ((chainL sl 0).takeWhile (fun j => lt (itemAt sl j) x)).filter
      (fun j => decide (i < heightOf sl j)), lt (itemAt sl e) x = true :=
    fun e he => List.mem_takeWhile_imp (p := fun j => lt (itemAt sl j) x)
      (List.mem_filter.mp he).1
  have h2 : ∀ e ∈ ((chainL sl 0).dropWhile (fun j => lt (itemAt sl j) x)).filter
      (fun j => decide (i < heightOf sl j)), lt (itemAt sl e) x = false :=
    fun e he => sorted_dropWhile_false hl hw.sorted e (List.mem_filter.mp he).1
  have hchain : chainL sl i
      = ((chainL sl 0).takeWhile (fun j => lt (itemAt sl j) x)).filter
          (fun j => decide (i < heightOf sl j))
        ++ ((chainL sl 0).dropWhile (fun j => lt (itemAt sl j) x)).filter
          (fun j => decide (i < heightOf sl j)) := by
    rw [hw.nested i, ← List.filter_append, hsplit]
  rw [hchain]
  exact takeWhile_split _ _ _ h1 h2

/-! ### Walk and descent correctness -/

theorem walk_spec {α : Type} [Inhabited α] (lt : α → α → Bool) (sl : SkipList α)
    (x : α) (i : Nat) :
    ∀ {c : List Nat} {p : Pos} {fuel : Nat},
      IsChainFrom sl i p c → (∀ j ∈ c, j < sl.arena.length) → c.length < fuel →
      walk lt sl x i fuel p
        = posAfter p (c.takeWhile (fun j => lt (itemAt sl j) x)) := by
  intro c
  induction c with
  | nil =>
    intro p fuel hchain _ hfuel
    match fuel, hfuel with
    | fuel + 1, _ =>
      cases hchain with
      | nil _ hn => simp [walk, hn, posAfter]
  | cons j c' ih =>
    intro p fuel hchain hv hfuel
    match fuel, hfuel with
    | fuel + 1, hfuel =>
      cases hchain with
      | cons hf hc =>
        have hjv : j < sl.arena.length := hv j (List.mem_cons_self _ _)
        have hnd := List.get?_eq_get hjv
        set nd := sl.arena.get ⟨j, hjv⟩ with hnddef
        have hitem : itemAt sl j = nd.item := by
          unfold itemAt
          rw [hnd]
        simp only [walk, hf, hnd]
        rw [List.takeWhile_cons, hitem]
        by_cases hlt : lt nd.item x = true
        · rw [hlt, if_pos rfl, if_pos rfl, posAfter_cons]
          exact ih hc (fun m hm => hv m (List.mem_cons_of_mem _ hm))
            (by simpa using Nat.lt_of_succ_lt_succ hfuel)
        · rw [if_neg hlt, if_neg (by simpa using hlt), posAfter_nil]

/-- The position the descent occupies at the end of processing level
`i`: the last node of level `i`'s chain whose item is below `x` (or
the head when there is none). -/
def updTarget {α : Type} [Inhabited α] (lt : α → α → Bool) (sl : SkipList α)
    (x : α) (i : Nat) : Pos :=
  posAfter Pos.head ((chainL sl i).takeWhile (fun j => lt (itemAt sl j) x))

theorem descend_spec {α : Type} [Inhabited α] {lt : α → α → Bool}
    (hl : LawfulLess lt) {sl : SkipList α} (hw : Wf lt sl) (x : α) :
    ∀ k, k ≤ sl.level → ∀ p, p = updTarget lt sl x k →
      (descend lt sl x k p).1 = updTarget lt sl x 0
      ∧ (descend lt sl x k p).2.length = k
      ∧ ∀ i, i < k → (descend lt sl x k p).2.get? i = some (updTarget lt sl x i) := by
  intro k
  induction k with
  | zero =>
    intro _ p hp
    refine ⟨hp, rfl, ?_⟩
    intro i hi
    cases hi
  | succ k ih =>
    intro hk p hp
    have hkle : k ≤ sl.level := Nat.le_of_succ_le hk
    -- the walk at level k lands on `updTarget lt sl x k`
    have hwalk : walk lt sl x k (sl.arena.length + 1) p = updTarget lt sl x k := by
      rcases heq : (chainL sl (k + 1)).takeWhile (fun j => lt (itemAt sl j) x)
        with _ | ⟨t0, ts⟩
      · -- no progress was made at level k + 1: p is the head
        have hphead : p = Pos.head := by rw [hp, updTarget, heq, posAfter_nil]
        rw [hphead]
        exact walk_spec lt sl x k (hw.chains k) (wf_valid_chain hw)
          (Nat.lt_succ_of_le (wf_chain_len_le hw k))
      · -- p is the last below-`x` node m of level k + 1, also on level k
        set t : List Nat := t0 :: ts with htdef
        have htne : t ≠ [] := by simp [htdef]
        set m := t.getLast htne with hmdef
        have hpm : p = Pos.node m := by
          rw [hp, updTarget, heq, ← List.dropLast_append_getLast htne, posAfter_concat]
        have hmt : m ∈ t := List.getLast_mem htne
        have hmchain : m ∈ chainL sl (k + 1) := by
          have := List.takeWhile_sublist (p := fun j => lt (itemAt sl j) x)
            (l := chainL sl (k + 1))
          rw [heq] at this
          exact this.mem hmt
        have hPm : lt (itemAt sl m) x = true := by
          have : m ∈ (chainL sl (k + 1)).takeWhile (fun j => lt (itemAt sl j) x) := by
            rw [heq]; exact hmt
          exact List.mem_takeWhile_imp (p := fun j => lt (itemAt sl j) x) this
        have hmk : m ∈ chainL sl k := by
          rw [wf_chain_of_le hw (Nat.le_succ k)] at hmchain
          exact (List.mem_filter.mp hmchain).1
        rcases List.append_of_mem hmk with ⟨a, b, hab⟩
        have hPa : ∀ e ∈ a, lt (itemAt sl e) x = true := by
          intro e he
          have hpw := wf_pairwise_chain hw k
          rw [hab, List.pairwise_append] at hpw
          have hrel : lt (itemAt sl m) (itemAt sl e) = false :=
            hpw.2.2 e he m (List.mem_cons_self _ _)
          by_contra hcon
          have he' : lt (itemAt sl e) x = false := by
            cases hv : lt (itemAt sl e) x with
            | false => rfl
            | true => exact absurd hv hcon
          have := hl.negTrans (itemAt sl m) (itemAt sl e) x hrel he'
          rw [hPm] at this
          cases this
        have hchb : IsChainFrom sl k (Pos.node m) b := by
          have h1 : IsChainFrom sl k Pos.head ((a ++ [m]) ++ b) := by
            rw [List.append_assoc]
            simpa [hab] using hw.chains k
          have := isChainFrom_drop h1
          rwa [posAfter_concat] at this
        have hwtake : (chainL sl k).takeWhile (fun j => lt (itemAt sl j) x)
            = (a ++ [m]) ++ b.takeWhile (fun j => lt (itemAt sl j) x) := by
          rw [hab, show a ++ m :: b = (a ++ [m]) ++ b by simp]
          rw [takeWhile_append_all _ (a ++ [m]) b ?_]
          intro e he
          rcases List.mem_append.mp he with hea | hem
          · exact hPa e hea
          · rcases List.mem_singleton.mp hem with rfl
            exact hPm
        have hblen : b.length < sl.arena.length + 1 := by
          have h1 : b.length ≤ (chainL sl k).length := by
            rw [hab]; simp
            omega
          exact Nat.lt_succ_of_le (Nat.le_trans h1 (wf_chain_len_le hw k))
        have hbv : ∀ j ∈ b, j < sl.arena.length := by
          intro j hj
          exact wf_valid_chain hw j (by rw [hab]; exact List.mem_append_right _ (List.mem_cons_of_mem _ hj))
        rw [hpm, walk_spec lt sl x k hchb hbv hblen, updTarget, hwtake,
          posAfter_append, posAfter_concat]
    -- now apply the induction hypothesis at level k
    simp only [descend]
    rw [hwalk]
    rcases ih hkle (updTarget lt sl x k) rfl with ⟨h1, h2, h3⟩
    refine ⟨h1, by simpa using h2, ?_⟩
    intro i hi
    by_cases hik : i < k
    · rw [List.get?_append (by rw [h2]; exact hik)]
      exact h3 i hik
    · have hik' : i = k := by omega
      subst hik'
      have := List.get?_concat_length (descend lt sl x i (updTarget lt sl x i)).2
        (updTarget lt sl x i)
      rw [h2] at this
      exact this

/-! ### Field-congruence and arena-extension lemmas -/

theorem fwd_congr_fields {α : Type} {s1 s2 : SkipList α}
    (hh : s1.headF = s2.headF) (ha : s1.arena = s2.arena) (p : Pos) (i : Nat) :
    fwd s1 p i = fwd s2 p i := by
  cases p <;> simp [fwd, nodeFwd, hh, ha]

theorem itemAt_congr_fields {α : Type} [Inhabited α] {s1 s2 : SkipList α}
    (ha : s1.arena = s2.arena) (j : Nat) : itemAt s1 j = itemAt s2 j := by
  simp [itemAt, ha]

theorem heightOf_congr_fields {α : Type} {s1 s2 : SkipList α}
    (ha : s1.arena = s2.arena) (j : Nat) : heightOf s1 j = heightOf s2 j := by
  simp [heightOf, ha]

theorem chainL_congr_fields {α : Type} {s1 s2 : SkipList α}
    (hh : s1.headF = s2.headF) (ha : s1.arena = s2.arena) (i : Nat) :
    chainL s1 i = chainL s2 i := by
  have hgen : ∀ fuel p, chainFrom s1 i fuel p = chainFrom s2 i fuel p := by
    intro fuel
    induction fuel with
    | zero => intro p; rfl
    | succ fuel ih =>
      intro p
      simp only [chainFrom, fwd_congr_fields hh ha p i]
      cases fwd s2 p i with
      | none => rfl
      | some j =>
        show j :: chainFrom s1 i fuel (Pos.node j) = j :: chainFrom s2 i fuel (Pos.node j)
        rw [ih]
  simp only [chainL, hgen, ha]

theorem isChainFrom_congr_fields {α : Type} {s1 s2 : SkipList α}
    (hh : s1.headF = s2.headF) (ha : s1.arena = s2.arena) {i : Nat} {p : Pos}
    {c : List Nat} (h : IsChainFrom s1 i p c) : IsChainFrom s2 i p c :=
  isChainFrom_congr h (fwd_congr_fields hh ha p i).symm
    (fun j _ => (fwd_congr_fields hh ha (Pos.node j) i).symm)

theorem getD_replicate_none (n i : Nat) :
    (List.replicate n (none : Option Nat)).getD i none = none := by
  induction n generalizing i with
  | zero => simp
  | succ n ih =>
    cases i with
    | zero => simp [List.replicate]
    | succ i => simpa [List.replicate] using ih i

theorem get?_append_left' {β : Type} (l : List β) (a : β) {m : Nat}
    (hm : m < l.length) : (l ++ [a]).get? m = l.get? m :=
  List.get?_append hm

/-- Appending a fresh node: links, items and heights of existing slots
are unchanged; the new slot holds the fresh node. -/
theorem fwd_extend {α : Type} (sl s2 : SkipList α) (nd : Node α)
    (hh : s2.headF = sl.headF) (ha : s2.arena = sl.arena ++ [nd]) :
    ∀ (p : Pos), (p = Pos.head ∨ ∃ m, p = Pos.node m ∧ m < sl.arena.length) →
    ∀ i, fwd s2 p i = fwd sl p i := by
  intro p hp i
  rcases hp with rfl | ⟨m, rfl, hm⟩
  · simp [fwd, hh]
  · simp only [fwd, nodeFwd, ha]
    rw [get?_append_left' _ _ hm]

theorem fwd_extend_new {α : Type} (sl s2 : SkipList α) (nd : Node α)
    (ha : s2.arena = sl.arena ++ [nd]) (i : Nat) :
    fwd s2 (Pos.node sl.arena.length) i = nd.forwards.getD i none := by
  simp only [fwd, nodeFwd, ha]
  rw [List.get?_concat_length]

theorem itemAt_extend {α : Type} [Inhabited α] (sl s2 : SkipList α)
    (nd : Node α) (ha : s2.arena = sl.arena ++ [nd]) {m : Nat}
    (hm : m < sl.arena.length) : itemAt s2 m = itemAt sl m := by
  simp only [itemAt, ha]
  rw [get?_append_left' _ _ hm]

theorem itemAt_extend_new {α : Type} [Inhabited α] (sl s2 : SkipList α)
    (nd : Node α) (ha : s2.arena = sl.arena ++ [nd]) :
    itemAt s2 sl.arena.length = nd.item := by
  simp only [itemAt, ha]
  rw [List.get?_concat_length]

theorem heightOf_extend {α : Type} (sl s2 : SkipList α) (nd : Node α)
    (ha : s2.arena = sl.arena ++ [nd]) {m : Nat} (hm : m < sl.arena.length) :
    heightOf s2 m = heightOf sl m := by
  simp only [heightOf, ha]
  rw [get?_append_left' _ _ hm]

theorem heightOf_extend_new {α : Type} (sl s2 : SkipList α) (nd : Node α)
    (ha : s2.arena = sl.arena ++ [nd]) :
    heightOf s2 sl.arena.length = nd.forwards.length := by
  simp only [heightOf, ha]
  rw [List.get?_concat_length]

theorem setInRange_extend {α : Type} (sl s2 : SkipList α) (nd : Node α)
    (hh : s2.headF = sl.headF) (ha : s2.arena = sl.arena ++ [nd]) (p : Pos)
    (hp : p = Pos.head ∨ ∃ m, p = Pos.node m ∧ m < sl.arena.length) (i : Nat) :
    setInRange s2 p i = setInRange sl p i := by
  rcases hp with rfl | ⟨m, rfl, hm⟩
  · simp [setInRange, hh]
  · simp only [setInRange, ha]
    rw [get?_append_left' _ _ hm]

theorem setInRange_setFwd {α : Type} (s : SkipList α) (p : Pos) (i : Nat)
    (v : Option Nat) (q : Pos) (i' : Nat) :
    setInRange (setFwd s p i v) q i' = setInRange s q i' := by
  cases p with
  | head =>
    cases q with
    | head => simp [setFwd, setInRange]
    | node m => rfl
  | node m =>
    cases hm : s.arena.get? m with
    | none =>
      have hset : setFwd s (Pos.node m) i v = s := by
        simp only [setFwd]; rw [hm]
      rw [hset]
    | some nd =>
      have hset : setFwd s (Pos.node m) i v =
          { s with arena := s.arena.set m { nd with forwards := nd.forwards.set i v } } := by
        simp only [setFwd]; rw [hm]
      rw [hset]
      cases q with
      | head => rfl
      | node m' =>
        simp only [setInRange]
        rw [List.get?_set]
        by_cases hmm : m = m'
        · subst hmm
          rw [if_pos rfl, hm]
          simp
        · rw [if_neg hmm]

/-! ### The splice loop of `Put` -/

theorem spliceStep_fields {α : Type} (updAt : Nat → Pos) (j i : Nat)
    (s : SkipList α) :
    (spliceStep updAt j i s).length = s.length
    ∧ (spliceStep updAt j i s).level = s.level
    ∧ (spliceStep updAt j i s).maxLevel = s.maxLevel
    ∧ (spliceStep updAt j i s).arena.length = s.arena.length
    ∧ (spliceStep updAt j i s).headF.length = s.headF.length := by
  unfold spliceStep
  refine ⟨?_, ?_, ?_, ?_, ?_⟩
  · rw [setFwd_length, setFwd_length]
  · rw [setFwd_level, setFwd_level]
  · rw [setFwd_maxLevel, setFwd_maxLevel]
  · rw [setFwd_arenaLen, setFwd_arenaLen]
  · rw [setFwd_headFLen, setFwd_headFLen]

theorem spliceLevels_fields {α : Type} (updAt : Nat → Pos) (j : Nat) :
    ∀ (is : List Nat) (s : SkipList α),
      (spliceLevels updAt j is s).length = s.length
      ∧ (spliceLevels updAt j is s).level = s.level
      ∧ (spliceLevels updAt j is s).maxLevel = s.maxLevel
      ∧ (spliceLevels updAt j is s).arena.length = s.arena.length
      ∧ (spliceLevels updAt j is s).headF.length = s.headF.length := by
  intro is
  induction is with
  | nil => intro s; exact ⟨rfl, rfl, rfl, rfl, rfl⟩
  | cons i is ih =>
    intro s
    have h1 := ih (spliceStep updAt j i s)
    have h2 := spliceStep_fields updAt j i s
    simp only [spliceLevels]
    exact ⟨h1.1.trans h2.1, h1.2.1.trans h2.2.1, h1.2.2.1.trans h2.2.2.1,
      h1.2.2.2.1.trans h2.2.2.2.1, h1.2.2.2.2.trans h2.2.2.2.2⟩

theorem spliceStep_itemAt {α : Type} [Inhabited α] (updAt : Nat → Pos)
    (j i : Nat) (s : SkipList α) (m : Nat) :
    itemAt (spliceStep updAt j i s) m = itemAt s m := by
  unfold spliceStep
  rw [itemAt_setFwd, itemAt_setFwd]

theorem spliceLevels_itemAt {α : Type} [Inhabited α] (updAt : Nat → Pos)
    (j : Nat) : ∀ (is : List Nat) (s : SkipList α) (m : Nat),
    itemAt (spliceLevels updAt j is s) m = itemAt s m := by
  intro is
  induction is with
  | nil => intro s m; rfl
  | cons i is ih =>
    intro s m
    simp only [spliceLevels]
    rw [ih, spliceStep_itemAt]

theorem spliceStep_heightOf {α : Type} (updAt : Nat → Pos)
    (j i : Nat) (s : SkipList α) (m : Nat) :
    heightOf (spliceStep updAt j i s) m = heightOf s m := by
  unfold spliceStep
  rw [heightOf_setFwd, heightOf_setFwd]

theorem spliceLevels_heightOf {α : Type} (updAt : Nat → Pos)
    (j : Nat) : ∀ (is : List Nat) (s : SkipList α) (m : Nat),
    heightOf (spliceLevels updAt j is s) m = heightOf s m := by
  intro is
  induction is with
  | nil => intro s m; rfl
  | cons i is ih =>
    intro s m
    simp only [spliceLevels]
    rw [ih, spliceStep_heightOf]

theorem spliceStep_setInRange {α : Type} (updAt : Nat → Pos)
    (j i : Nat) (s : SkipList α) (q : Pos) (i' : Nat) :
    setInRange (spliceStep updAt j i s) q i' = setInRange s q i' := by
  unfold spliceStep
  rw [setInRange_setFwd, setInRange_setFwd]

/-- What one splice iteration does to every forward link. -/
theorem spliceStep_fwd {α : Type} (updAt : Nat → Pos) (j i : Nat)
    (s : SkipList α) (hj : updAt i ≠ Pos.node j)
    (hr1 : setInRange s (updAt i) i = true)
    (hr2 : setInRange s (Pos.node j) i = true) (q : Pos) (i' : Nat) :
    fwd (spliceStep updAt j i s) q i' =
      if i' = i then
        (if q = Pos.node j then fwd s (updAt i) i
         else if q = updAt i then some j
         else fwd s q i')
      else fwd s q i' := by
  unfold spliceStep
  rw [fwd_setFwd, fwd_setFwd, setInRange_setFwd]
  by_cases hii : i' = i
  · subst hii
    by_cases hq1 : q = Pos.node j
    · subst hq1
      simp [Ne.symm hj, hr2]
    · by_cases hq2 : q = updAt i'
      · subst hq2
        simp [hj, hr1]
      · simp [hq1, hq2]
  · simp [hii]

/-- What the whole splice loop does to every forward link, for a
duplicate-free list of levels with in-range update positions. -/
theorem spliceLevels_fwd {α : Type} (updAt : Nat → Pos) (j : Nat) :
    ∀ (is : List Nat) (s : SkipList α), is.Nodup →
      (∀ i ∈ is, setInRange s (updAt i) i = true) →
      (∀ i ∈ is, setInRange s (Pos.node j) i = true) →
      (∀ i, updAt i ≠ Pos.node j) →
      ∀ (q : Pos) (i' : Nat),
        fwd (spliceLevels updAt j is s) q i' =
          if i' ∈ is then
            (if q = Pos.node j then fwd s (updAt i') i'
             else if q = updAt i' then some j
             else fwd s q i')
          else fwd s q i' := by
  intro is
  induction is with
  | nil =>
    intro s _ _ _ _ q i'
    simp [spliceLevels]
  | cons i is ih =>
    intro s hnd hr1 hr2 hj q i'
    have hstep := spliceStep_fwd updAt j i s (hj i)
      (hr1 i (List.mem_cons_self _ _)) (hr2 i (List.mem_cons_self _ _))
    have hihr1 : ∀ k ∈ is, setInRange (spliceStep updAt j i s) (updAt k) k = true := by
      intro k hk
      rw [spliceStep_setInRange]
      exact hr1 k (List.mem_cons_of_mem _ hk)
    have hihr2 : ∀ k ∈ is, setInRange (spliceStep updAt j i s) (Pos.node j) k = true := by
      intro k hk
      rw [spliceStep_setInRange]
      exact hr2 k (List.mem_cons_of_mem _ hk)
    simp only [spliceLevels]
    rw [ih (spliceStep updAt j i s) hnd.tail hihr1 hihr2 hj q i']
    have hini : i ∉ is := (List.nodup_cons.mp hnd).1
    by_cases hmem : i' ∈ is
    · have hii : i' ≠ i := fun hcon => hini (hcon ▸ hmem)
      rw [if_pos hmem, if_pos (List.mem_cons_of_mem _ hmem)]
      by_cases hq1 : q = Pos.node j
      · rw [if_pos hq1, if_pos hq1, hstep, if_neg hii]
      · rw [if_neg hq1, if_neg hq1]
        by_cases hq2 : q = updAt i'
        · rw [if_pos hq2, if_pos hq2]
        · rw [if_neg hq2, if_neg hq2, hstep, if_neg hii]
    · rw [if_neg hmem]
      by_cases hii : i' = i
      · rw [hii]
        rw [if_pos (List.mem_cons_self _ _), hstep, if_pos rfl]
      · rw [if_neg (by simp [List.mem_cons, hii, hmem]), hstep, if_neg hii]

/-! ### The update array after a descent -/

theorem posAfter_head_ne (c : List Nat) (hne : c ≠ []) :
    posAfter Pos.head c = Pos.node (c.getLast hne) := by
  conv_lhs => rw [← List.dropLast_append_getLast hne]
  rw [posAfter_concat]

theorem updTarget_above {α : Type} [Inhabited α] {lt : α → α → Bool}
    {sl : SkipList α} (hw : Wf lt sl) {x : α} {i : Nat} (hi : sl.level ≤ i) :
    updTarget lt sl x i = Pos.head := by
  rw [updTarget, wf_chain_empty_above hw hi]
  rfl

theorem updTarget_cases {α : Type} [Inhabited α] (lt : α → α → Bool)
    (sl : SkipList α) (x : α) (i : Nat) :
    updTarget lt sl x i = Pos.head ∨
    ∃ m, updTarget lt sl x i = Pos.node m
      ∧ m ∈ (chainL sl i).takeWhile (fun j => lt (itemAt sl j) x)
      ∧ m ∈ chainL sl i := by
  rcases heq : (chainL sl i).takeWhile (fun j => lt (itemAt sl j) x) with _ | ⟨t0, ts⟩
  · left
    rw [updTarget, heq]
    rfl
  · right
    refine ⟨(t0 :: ts).getLast (by simp), ?_, ?_, ?_⟩
    · rw [updTarget, heq, posAfter_head_ne _ (by simp)]
    · exact List.getLast_mem _
    · have hsub := List.takeWhile_sublist (p := fun j => lt (itemAt sl j) x)
        (l := chainL sl i)
      rw [heq] at hsub
      exact hsub.mem (List.getLast_mem _)

theorem wf_setInRange_updTarget {α : Type} [Inhabited α] {lt : α → α → Bool}
    {sl : SkipList α} (hw : Wf lt sl) (x : α) {i : Nat} (hi : i < sl.maxLevel) :
    setInRange sl (updTarget lt sl x i) i = true := by
  rcases updTarget_cases lt sl x i with h | ⟨m, h, _, hmi⟩
  · rw [h]
    simp [setInRange, hw.headLen, hi]
  · rw [h]
    have hv : m < sl.arena.length := wf_valid_chain hw m hmi
    have hh : i < heightOf sl m := wf_height_gt hw hmi
    have hg := List.get?_eq_get hv
    simp only [setInRange]
    rw [hg]
    have hht : heightOf sl m = (sl.arena.get ⟨m, hv⟩).forwards.length := by
      unfold heightOf
      rw [hg]
    show decide (i < (sl.arena.get ⟨m, hv⟩).forwards.length) = true
    rw [← hht]
    simpa using hh

theorem updTarget_ne_new {α : Type} [Inhabited α] {lt : α → α → Bool}
    {sl : SkipList α} (hw : Wf lt sl) (x : α) (i : Nat) :
    updTarget lt sl x i ≠ Pos.node sl.arena.length := by
  rcases updTarget_cases lt sl x i with h | ⟨m, h, _, hmi⟩
  · rw [h]
    simp
  · rw [h]
    intro hcon
    cases hcon
    exact absurd (wf_valid_chain hw _ hmi) (by omega)

theorem updFn_descend {α : Type} [Inhabited α] {lt : α → α → Bool}
    (hl : LawfulLess lt) {sl : SkipList α} (hw : Wf lt sl) (x : α) (i : Nat) :
    updFn (descend lt sl x sl.level Pos.head).2 i = updTarget lt sl x i := by
  have hds := descend_spec hl hw x sl.level le_rfl Pos.head
    (updTarget_above hw le_rfl).symm
  rcases hds with ⟨_, h2, h3⟩
  unfold updFn
  by_cases hi : i < (descend lt sl x sl.level Pos.head).2.length
  · rw [dif_pos hi]
    have hg := h3 i (by rw [← h2]; exact hi)
    rw [List.get?_eq_get hi] at hg
    exact Option.some.inj hg
  · rw [dif_neg hi]
    rw [h2] at hi
    exact (updTarget_above hw (Nat.le_of_not_lt hi)).symm

theorem descend_final {α : Type} [Inhabited α] {lt : α → α → Bool}
    (hl : LawfulLess lt) {sl : SkipList α} (hw : Wf lt sl) (x : α) :
    (descend lt sl x sl.level Pos.head).1 = updTarget lt sl x 0 :=
  (descend_spec hl hw x sl.level le_rfl Pos.head
    (updTarget_above hw le_rfl).symm).1

/-- The forward link out of the final descent position is the first
node whose item is not below `x`. -/
theorem wf_fwd_updTarget {α : Type} [Inhabited α] {lt : α → α → Bool}
    {sl : SkipList α} (hw : Wf lt sl) (x : α) (i : Nat) :
    fwd sl (updTarget lt sl x i) i
      = ((chainL sl i).dropWhile (fun j => lt (itemAt sl j) x)).head? := by
  have hchain : IsChainFrom sl i Pos.head
      ((chainL sl i).takeWhile (fun j => lt (itemAt sl j) x)
        ++ (chainL sl i).dropWhile (fun j => lt (itemAt sl j) x)) := by
    rw [List.takeWhile_append_dropWhile]
    exact hw.chains i
  have hdrop := isChainFrom_drop hchain
  exact isChainFrom_head? hdrop

/-! ### `Put`: characterizing the spliced state -/

/-- The state `Put` has built just before `sl.length++`: level raised,
new node appended, splice loop done.  `putWithLevel` is this plus the
length increment. -/
def putState {α : Type} [Inhabited α] (lt : α → α → Bool) (sl : SkipList α)
    (x : α) (lvl : Nat) : SkipList α :=
  spliceLevels (updFn (descend lt sl x sl.level Pos.head).2) sl.arena.length
    (List.range lvl)
    { sl with
      level := if sl.level < lvl then lvl else sl.level,
      arena := sl.arena ++ [{ item := x, forwards := List.replicate lvl none }] }

theorem putWithLevel_eq_putState {α : Type} [Inhabited α] (lt : α → α → Bool)
    (sl : SkipList α) (x : α) (lvl : Nat) :
    putWithLevel lt sl x lvl
      = { putState lt sl x lvl with length := (putState lt sl x lvl).length + 1 } :=
  rfl

theorem putState_fields {α : Type} [Inhabited α] (lt : α → α → Bool)
    (sl : SkipList α) (x : α) (lvl : Nat) :
    (putState lt sl x lvl).length = sl.length
    ∧ (putState lt sl x lvl).level = (if sl.level < lvl then lvl else sl.level)
    ∧ (putState lt sl x lvl).maxLevel = sl.maxLevel
    ∧ (putState lt sl x lvl).arena.length = sl.arena.length + 1
    ∧ (putState lt sl x lvl).headF.length = sl.headF.length := by
  unfold putState
  have h := spliceLevels_fields (updFn (descend lt sl x sl.level Pos.head).2)
    sl.arena.length (List.range lvl)
    { sl with
      level := if sl.level < lvl then lvl else sl.level,
      arena := sl.arena ++ [{ item := x, forwards := List.replicate lvl none }] }
  refine ⟨h.1.trans rfl, h.2.1.trans rfl, h.2.2.1.trans rfl, ?_, h.2.2.2.2.trans rfl⟩
  rw [h.2.2.2.1]
  simp

theorem putState_itemAt {α : Type} [Inhabited α] (lt : α → α → Bool)
    (sl : SkipList α) (x : α) (lvl : Nat) :
    (∀ m, m < sl.arena.length → itemAt (putState lt sl x lvl) m = itemAt sl m)
    ∧ itemAt (putState lt sl x lvl) sl.arena.length = x := by
  unfold putState
  constructor
  · intro m hm
    rw [spliceLevels_itemAt]
    exact itemAt_extend sl _ _ rfl hm
  · rw [spliceLevels_itemAt]
    exact itemAt_extend_new sl
      { sl with
        level := if sl.level < lvl then lvl else sl.level,
        arena := sl.arena ++ [{ item := x, forwards := List.replicate lvl none }] }
      { item := x, forwards := List.replicate lvl none } rfl

theorem putState_heightOf {α : Type} [Inhabited α] (lt : α → α → Bool)
    (sl : SkipList α) (x : α) (lvl : Nat) :
    (∀ m, m < sl.arena.length → heightOf (putState lt sl x lvl) m = heightOf sl m)
    ∧ heightOf (putState lt sl x lvl) sl.arena.length = lvl := by
  unfold putState
  constructor
  · intro m hm
    rw [spliceLevels_heightOf]
    exact heightOf_extend sl _ _ rfl hm
  · rw [spliceLevels_heightOf]
    rw [heightOf_extend_new sl
      { sl with
        level := if sl.level < lvl then lvl else sl.level,
        arena := sl.arena ++ [{ item := x, forwards := List.replicate lvl none }] }
      { item := x, forwards := List.replicate lvl none } rfl]
    simp

/-- A position is "old": the head or a node already in the arena. -/
def OldPos {α : Type} (sl : SkipList α) (p : Pos) : Prop :=
  p = Pos.head ∨ ∃ m, p = Pos.node m ∧ m < sl.arena.length

theorem oldPos_updTarget {α : Type} [Inhabited α] {lt : α → α → Bool}
    {sl : SkipList α} (hw : Wf lt sl) (x : α) (i : Nat) :
    OldPos sl (updTarget lt sl x i) := by
  rcases updTarget_cases lt sl x i with h | ⟨m, h, _, hmi⟩
  · exact Or.inl h
  · exact Or.inr ⟨m, h, wf_valid_chain hw m hmi⟩

theorem putState_fwd {α : Type} [Inhabited α] {lt : α → α → Bool}
    (hl : LawfulLess lt) {sl : SkipList α} (hw : Wf lt sl) (x : α) {lvl : Nat}
    (h2 : lvl ≤ sl.maxLevel) :
    (∀ q, OldPos sl q → ∀ i', fwd (putState lt sl x lvl) q i'
      = if i' < lvl ∧ q = updTarget lt sl x i' then some sl.arena.length
        else fwd sl q i')
    ∧ (∀ i', fwd (putState lt sl x lvl) (Pos.node sl.arena.length) i'
      = if i' < lvl then fwd sl (updTarget lt sl x i') i' else none) := by
  have hUA : ∀ i, updFn (descend lt sl x sl.level Pos.head).2 i = updTarget lt sl x i :=
    fun i => updFn_descend hl hw x i
  have hs2h : ({ sl with
      level := if sl.level < lvl then lvl else sl.level,
      arena := sl.arena ++ [{ item := x, forwards := List.replicate lvl none }] }
        : SkipList α).headF = sl.headF := rfl
  have hs2a : ({ sl with
      level := if sl.level < lvl then lvl else sl.level,
      arena := sl.arena ++ [{ item := x, forwards := List.replicate lvl none }] }
        : SkipList α).arena
      = sl.arena ++ [{ item := x, forwards := List.replicate lvl none }] := rfl
  have hOld : ∀ i, OldPos sl (updFn (descend lt sl x sl.level Pos.head).2 i) := by
    intro i
    rw [hUA i]
    exact oldPos_updTarget hw x i
  have hr1 : ∀ i ∈ List.range lvl,
      setInRange { sl with
        level := if sl.level < lvl then lvl else sl.level,
        arena := sl.arena ++ [{ item := x, forwards := List.replicate lvl none }] }
        (updFn (descend lt sl x sl.level Pos.head).2 i) i = true := by
    intro i hi
    rw [setInRange_extend sl _ _ hs2h hs2a _ (hOld i) i, hUA i]
    exact wf_setInRange_updTarget hw x (lt_of_lt_of_le (List.mem_range.mp hi) h2)
  have hr2 : ∀ i ∈ List.range lvl,
      setInRange { sl with
        level := if sl.level < lvl then lvl else sl.level,
        arena := sl.arena ++ [{ item := x, forwards := List.replicate lvl none }] }
        (Pos.node sl.arena.length) i = true := by
    intro i hi
    simp only [setInRange]
    rw [List.get?_concat_length]
    show decide (i < (List.replicate lvl none).length) = true
    simp
    exact List.mem_range.mp hi
  have hne : ∀ i, updFn (descend lt sl x sl.level Pos.head).2 i
      ≠ Pos.node sl.arena.length := by
    intro i
    rw [hUA i]
    exact updTarget_ne_new hw x i
  have key := spliceLevels_fwd (updFn (descend lt sl x sl.level Pos.head).2)
    sl.arena.length (List.range lvl)
    { sl with
      level := if sl.level < lvl then lvl else sl.level,
      arena := sl.arena ++ [{ item := x, forwards := List.replicate lvl none }] }
    (List.nodup_range lvl) hr1 hr2 hne
  have h2fwd : ∀ p, OldPos sl p → ∀ i,
      fwd { sl with
        level := if sl.level < lvl then lvl else sl.level,
        arena := sl.arena ++ [{ item := x, forwards := List.replicate lvl none }] }
        p i = fwd sl p i :=
    fwd_extend sl _ _ hs2h hs2a
  have h2fwd_new : ∀ i,
      fwd { sl with
        level := if sl.level < lvl then lvl else sl.level,
        arena := sl.arena ++ [{ item := x, forwards := List.replicate lvl none }] }
        (Pos.node sl.arena.length) i = none := by
    intro i
    rw [fwd_extend_new sl _ _ hs2a i]
    exact getD_replicate_none lvl i
  constructor
  · intro q hq i'
    show fwd (putState lt sl x lvl) q i' = _
    unfold putState
    rw [key q i']
    by_cases hil : i' < lvl
    · rw [if_pos (List.mem_range.mpr hil)]
      have hqne : q ≠ Pos.node sl.arena.length := by
        rcases hq with rfl | ⟨m, rfl, hm⟩
        · simp
        · intro hcon
          cases hcon
          omega
      rw [if_neg hqne]
      by_cases hqu : q = updFn (descend lt sl x sl.level Pos.head).2 i'
      · rw [if_pos hqu, if_pos ⟨hil, by rw [← hUA i']; exact hqu⟩]
      · have hnc : ¬(i' < lvl ∧ q = updTarget lt sl x i') :=
          fun hcon => hqu (by rw [hUA i']; exact hcon.2)
        rw [if_neg hqu, if_neg hnc, h2fwd q hq i']
    · have hnmem : i' ∉ List.range lvl := by simpa using hil
      have hnc : ¬(i' < lvl ∧ q = updTarget lt sl x i') := fun hcon => hil hcon.1
      rw [if_neg hnmem, if_neg hnc, h2fwd q hq i']
  · intro i'
    show fwd (putState lt sl x lvl) (Pos.node sl.arena.length) i' = _
    unfold putState
    rw [key (Pos.node sl.arena.length) i']
    by_cases hil : i' < lvl
    · rw [if_pos (List.mem_range.mpr hil), if_pos rfl, if_pos hil,
        h2fwd _ (hOld i') i', hUA i']
    · have hnmem : i' ∉ List.range lvl := by simpa using hil
      rw [if_neg hnmem, if_neg hil, h2fwd_new i']

theorem putState_chain_hi {α : Type} [Inhabited α] {lt : α → α → Bool}
    (hl : LawfulLess lt) {sl : SkipList α} (hw : Wf lt sl) (x : α) {lvl i : Nat}
    (h2 : lvl ≤ sl.maxLevel) (hi : lvl ≤ i) :
    IsChainFrom (putState lt sl x lvl) i Pos.head (chainL sl i) := by
  have hfwd := (putState_fwd hl hw x h2).1
  refine isChainFrom_congr (hw.chains i) ?_ ?_
  · rw [hfwd Pos.head (Or.inl rfl) i]
    exact if_neg (fun hcon => absurd hcon.1 (by omega))
  · intro j hj
    rw [hfwd (Pos.node j) (Or.inr ⟨j, rfl, wf_valid_chain hw j hj⟩) i]
    exact if_neg (fun hcon => absurd hcon.1 (by omega))

theorem putState_chain_lo {α : Type} [Inhabited α] {lt : α → α → Bool}
    (hl : LawfulLess lt) {sl : SkipList α} (hw : Wf lt sl) (x : α) {lvl i : Nat}
    (h2 : lvl ≤ sl.maxLevel) (hi : i < lvl) :
    IsChainFrom (putState lt sl x lvl) i Pos.head
      ((chainL sl i).takeWhile (fun j => lt (itemAt sl j) x)
        ++ sl.arena.length ::
          (chainL sl i).dropWhile (fun j => lt (itemAt sl j) x)) := by
  have hfwd1 := (putState_fwd hl hw x h2).1
  have hfwd2 := (putState_fwd hl hw x h2).2
  have hsplit : chainL sl i
      = (chainL sl i).takeWhile (fun j => lt (itemAt sl j) x)
        ++ (chainL sl i).dropWhile (fun j => lt (itemAt sl j) x) :=
    (List.takeWhile_append_dropWhile _ _).symm
  have hnd : ((chainL sl i).takeWhile (fun j => lt (itemAt sl j) x)
      ++ (chainL sl i).dropWhile (fun j => lt (itemAt sl j) x)).Nodup := by
    rw [← hsplit]
    exact wf_nodup hw i
  have hUhead : (chainL sl i).takeWhile (fun j => lt (itemAt sl j) x) = [] →
      updTarget lt sl x i = Pos.head := by
    intro hpfe
    show posAfter Pos.head ((chainL sl i).takeWhile (fun j => lt (itemAt sl j) x))
      = Pos.head
    rw [hpfe]
    rfl
  have hUlast : ∀ hne : (chainL sl i).takeWhile (fun j => lt (itemAt sl j) x) ≠ [],
      updTarget lt sl x i
        = Pos.node (((chainL sl i).takeWhile (fun j => lt (itemAt sl j) x)).getLast hne) :=
    fun hne => posAfter_head_ne _ hne
  -- no node of the dropped suffix is the splice point
  have hrs_ne : ∀ m ∈ (chainL sl i).dropWhile (fun j => lt (itemAt sl j) x),
      Pos.node m ≠ updTarget lt sl x i := by
    intro m hm hcon
    by_cases hpfe : (chainL sl i).takeWhile (fun j => lt (itemAt sl j) x) = []
    · rw [hUhead hpfe] at hcon
      cases hcon
    · rw [hUlast hpfe] at hcon
      have hmeq : m = ((chainL sl i).takeWhile (fun j => lt (itemAt sl j) x)).getLast hpfe := by
        cases hcon
        rfl
      have hdisj := (List.nodup_append.mp hnd).2.2
      exact hdisj (hmeq ▸ List.getLast_mem hpfe) hm
  have hseg : Seg sl i Pos.head
      ((chainL sl i).takeWhile (fun j => lt (itemAt sl j) x)) (updTarget lt sl x i) := by
    have h1 : IsChainFrom sl i Pos.head
        ((chainL sl i).takeWhile (fun j => lt (itemAt sl j) x)
          ++ (chainL sl i).dropWhile (fun j => lt (itemAt sl j) x)) := by
      rw [← hsplit]
      exact hw.chains i
    exact seg_of_chain h1
  have hsegP : Seg (putState lt sl x lvl) i Pos.head
      ((chainL sl i).takeWhile (fun j => lt (itemAt sl j) x)) (updTarget lt sl x i) := by
    refine seg_congr hseg ?_ ?_
    · intro hne0
      rw [hfwd1 Pos.head (Or.inl rfl) i]
      refine if_neg (fun hcon => ?_)
      rw [hUlast hne0] at hcon
      cases hcon.2
    · intro m hm
      have hmp : m ∈ (chainL sl i).takeWhile (fun j => lt (itemAt sl j) x) :=
        List.Sublist.mem hm (List.dropLast_sublist _)
      have hmchain : m ∈ chainL sl i := by
        rw [hsplit]
        exact List.mem_append_left _ hmp
      rw [hfwd1 (Pos.node m) (Or.inr ⟨m, rfl, wf_valid_chain hw m hmchain⟩) i]
      refine if_neg (fun hcon => ?_)
      have hne0 : (chainL sl i).takeWhile (fun j => lt (itemAt sl j) x) ≠ [] := by
        intro hcon2
        rw [hcon2] at hmp
        cases hmp
      rw [hUlast hne0] at hcon
      have hmeq : m = ((chainL sl i).takeWhile (fun j => lt (itemAt sl j) x)).getLast hne0 := by
        cases hcon.2
        rfl
      have hpnd : ((chainL sl i).takeWhile (fun j => lt (itemAt sl j) x)).Nodup :=
        List.Nodup.sublist (List.takeWhile_sublist _) (wf_nodup hw i)
      have hdec := List.dropLast_append_getLast hne0
      rw [← hdec] at hpnd
      have := (List.nodup_append.mp hpnd).2.2
      exact this (hmeq ▸ hm) (List.mem_singleton_self _)
  have hlink1 : fwd (putState lt sl x lvl) (updTarget lt sl x i) i
      = some sl.arena.length := by
    rw [hfwd1 (updTarget lt sl x i) (oldPos_updTarget hw x i) i, if_pos ⟨hi, rfl⟩]
  have hseg2 : Seg (putState lt sl x lvl) i Pos.head
      ((chainL sl i).takeWhile (fun j => lt (itemAt sl j) x) ++ [sl.arena.length])
      (Pos.node sl.arena.length) := seg_snoc hsegP hlink1
  have hlink2 : fwd (putState lt sl x lvl) (Pos.node sl.arena.length) i
      = ((chainL sl i).dropWhile (fun j => lt (itemAt sl j) x)).head? := by
    rw [hfwd2 i, if_pos hi, wf_fwd_updTarget hw x i]
  have hchdrop : IsChainFrom sl i (updTarget lt sl x i)
      ((chainL sl i).dropWhile (fun j => lt (itemAt sl j) x)) := by
    have h1 : IsChainFrom sl i Pos.head
        ((chainL sl i).takeWhile (fun j => lt (itemAt sl j) x)
          ++ (chainL sl i).dropWhile (fun j => lt (itemAt sl j) x)) := by
      rw [← hsplit]
      exact hw.chains i
    exact isChainFrom_drop h1
  have hrest : IsChainFrom (putState lt sl x lvl) i (Pos.node sl.arena.length)
      ((chainL sl i).dropWhile (fun j => lt (itemAt sl j) x)) := by
    rcases hrs : (chainL sl i).dropWhile (fun j => lt (itemAt sl j) x)
      with _ | ⟨r, rtl⟩
    · refine IsChainFrom.nil _ ?_
      rw [hlink2, hrs]
      rfl
    · rw [hrs] at hchdrop
      cases hchdrop with
      | cons hfr hcr =>
        have hcr' : IsChainFrom (putState lt sl x lvl) i (Pos.node r) rtl := by
          refine isChainFrom_congr hcr ?_ ?_
          · have hrmem : r ∈ (chainL sl i).dropWhile (fun j => lt (itemAt sl j) x) := by
              rw [hrs]
              exact List.mem_cons_self _ _
            have hrchain : r ∈ chainL sl i := by
              rw [hsplit]
              exact List.mem_append_right _ hrmem
            rw [hfwd1 (Pos.node r) (Or.inr ⟨r, rfl, wf_valid_chain hw r hrchain⟩) i]
            exact if_neg (fun hcon => hrs_ne r hrmem hcon.2)
          · intro m hm
            have hmmem : m ∈ (chainL sl i).dropWhile (fun j => lt (itemAt sl j) x) := by
              rw [hrs]
              exact List.mem_cons_of_mem _ hm
            have hmchain : m ∈ chainL sl i := by
              rw [hsplit]
              exact List.mem_append_right _ hmmem
            rw [hfwd1 (Pos.node m) (Or.inr ⟨m, rfl, wf_valid_chain hw m hmchain⟩) i]
            exact if_neg (fun hcon => hrs_ne m hmmem hcon.2)
        refine IsChainFrom.cons ?_ hcr'
        rw [hlink2, hrs]
        rfl
  have hfinal := chain_of_seg hseg2 hrest
  rw [List.append_assoc] at hfinal
  simpa using hfinal

theorem putState_chainL {α : Type} [Inhabited α] {lt : α → α → Bool}
    (hl : LawfulLess lt) {sl : SkipList α} (hw : Wf lt sl) (x : α) {lvl : Nat}
    (h2 : lvl ≤ sl.maxLevel) (i : Nat) :
    chainL (putState lt sl x lvl) i
      = if i < lvl then
          (chainL sl i).takeWhile (fun j => lt (itemAt sl j) x)
            ++ sl.arena.length ::
              (chainL sl i).dropWhile (fun j => lt (itemAt sl j) x)
        else chainL sl i := by
  have hfield := (putState_fields lt sl x lvl).2.2.2.1
  show chainFrom (putState lt sl x lvl) i
    ((putState lt sl x lvl).arena.length + 1) Pos.head = _
  rw [hfield]
  by_cases hi : i < lvl
  · rw [if_pos hi]
    refine chainFrom_eq (putState_chain_lo hl hw x h2 hi) ?_
    have h1 : ((chainL sl i).takeWhile (fun j => lt (itemAt sl j) x)).length
        + ((chainL sl i).dropWhile (fun j => lt (itemAt sl j) x)).length
        = (chainL sl i).length := by
      rw [← List.length_append, List.takeWhile_append_dropWhile]
    have h3 := wf_chain_len_le hw i
    simp only [List.length_append, List.length_cons]
    omega
  · rw [if_neg hi]
    refine chainFrom_eq (putState_chain_hi hl hw x h2 (Nat.le_of_not_lt hi)) ?_
    have h3 := wf_chain_len_le hw i
    omega

/-- Everything `Put` (via `putWithLevel`) does to a well-formed
skiplist: preserves well-formedness, splices the new item into the
bottom chain between the below-`x` nodes and the rest, keeps old
items, increments the length. -/
theorem putWithLevel_spec {α : Type} [Inhabited α] {lt : α → α → Bool}
    (hl : LawfulLess lt) {sl : SkipList α} (hw : Wf lt sl) (x : α) {lvl : Nat}
    (h1 : 1 ≤ lvl) (h2 : lvl ≤ sl.maxLevel) :
    Wf lt (putWithLevel lt sl x lvl)
    ∧ chainL (putWithLevel lt sl x lvl) 0
        = (chainL sl 0).takeWhile (fun j => lt (itemAt sl j) x)
          ++ sl.arena.length :: (chainL sl 0).dropWhile (fun j => lt (itemAt sl j) x)
    ∧ (∀ m, m < sl.arena.length → itemAt (putWithLevel lt sl x lvl) m = itemAt sl m)
    ∧ itemAt (putWithLevel lt sl x lvl) sl.arena.length = x
    ∧ (putWithLevel lt sl x lvl).length = sl.length + 1
    ∧ (putWithLevel lt sl x lvl).maxLevel = sl.maxLevel
    ∧ (putWithLevel lt sl x lvl).arena.length = sl.arena.length + 1 := by
  have hF := putState_fields lt sl x lvl
  have hIt := putState_itemAt lt sl x lvl
  have hH := putState_heightOf lt sl x lvl
  have hC := fun i => putState_chainL hl hw x h2 i
  have hlo := fun i (hi : i < lvl) => putState_chain_lo hl hw x h2 hi
  have hhi := fun i (hi : lvl ≤ i) => putState_chain_hi hl hw x h2 hi
  have hfwdh := fun i' => (putState_fwd hl hw x h2).1 Pos.head (Or.inl rfl) i'
  rw [putWithLevel_eq_putState]
  set S := putState lt sl x lvl with hS
  have hTh : ({ S with length := S.length + 1 } : SkipList α).headF = S.headF := rfl
  have hTa : ({ S with length := S.length + 1 } : SkipList α).arena = S.arena := rfl
  have hTlvl : ({ S with length := S.length + 1 } : SkipList α).level = S.level := rfl
  have hTmax : ({ S with length := S.length + 1 } : SkipList α).maxLevel
      = S.maxLevel := rfl
  have hTlen : ({ S with length := S.length + 1 } : SkipList α).length
      = S.length + 1 := rfl
  have hTc : ∀ i, chainL ({ S with length := S.length + 1 } : SkipList α) i
      = chainL S i := fun i => chainL_congr_fields hTh hTa i
  have hTi : ∀ m, itemAt ({ S with length := S.length + 1 } : SkipList α) m
      = itemAt S m := fun m => itemAt_congr_fields hTa m
  have hTht : ∀ m, heightOf ({ S with length := S.length + 1 } : SkipList α) m
      = heightOf S m := fun m => heightOf_congr_fields hTa m
  have hTf : ∀ p i, fwd ({ S with length := S.length + 1 } : SkipList α) p i
      = fwd S p i := fun p i => fwd_congr_fields hTh hTa p i
  have hlvlLe : lvl ≤ (if sl.level < lvl then lvl else sl.level) := by
    by_cases hc : sl.level < lvl
    · rw [if_pos hc]
    · rw [if_neg hc]
      omega
  have hslvlLe : sl.level ≤ (if sl.level < lvl then lvl else sl.level) := by
    by_cases hc : sl.level < lvl
    · rw [if_pos hc]
      omega
    · rw [if_neg hc]
  have h0lvl : 0 < lvl := h1
  have hsplit0 : chainL sl 0
      = (chainL sl 0).takeWhile (fun j => lt (itemAt sl j) x)
        ++ (chainL sl 0).dropWhile (fun j => lt (itemAt sl j) x) :=
    (List.takeWhile_append_dropWhile _ _).symm
  have hvpref : ∀ j ∈ (chainL sl 0).takeWhile (fun j => lt (itemAt sl j) x),
      j < sl.arena.length :=
    fun j hj => hw.valid j (List.Sublist.mem hj (List.takeWhile_sublist _))
  have hvrest : ∀ j ∈ (chainL sl 0).dropWhile (fun j => lt (itemAt sl j) x),
      j < sl.arena.length :=
    fun j hj => hw.valid j (List.Sublist.mem hj (List.dropWhile_sublist _))
  have hchain0S : chainL S 0
      = (chainL sl 0).takeWhile (fun j => lt (itemAt sl j) x)
        ++ sl.arena.length :: (chainL sl 0).dropWhile (fun j => lt (itemAt sl j) x) := by
    rw [hC 0, if_pos h0lvl]
  refine ⟨⟨?_, ?_, ?_, ?_, ?_, ?_, ?_, ?_, ?_, ?_⟩, ?_, ?_, ?_, ?_, ?_, ?_⟩
  · -- headLen
    show ({ S with length := S.length + 1 } : SkipList α).headF.length
      = ({ S with length := S.length + 1 } : SkipList α).maxLevel
    rw [hTh, hTmax, hF.2.2.2.2, hF.2.2.1, hw.headLen]
  · -- maxOk
    show 2 ≤ ({ S with length := S.length + 1 } : SkipList α).maxLevel
    rw [hTmax, hF.2.2.1]
    exact hw.maxOk
  · -- levelLe
    show ({ S with length := S.length + 1 } : SkipList α).level
      ≤ ({ S with length := S.length + 1 } : SkipList α).maxLevel
    rw [hTlvl, hTmax, hF.2.1, hF.2.2.1]
    by_cases hc : sl.level < lvl
    · rw [if_pos hc]
      exact h2
    · rw [if_neg hc]
      exact hw.levelLe
  · -- above
    intro i hi
    rw [hTlvl, hF.2.1] at hi
    rw [hTf Pos.head i, hfwdh i]
    rw [if_neg (fun hcon => absurd hcon.1 (by omega))]
    exact hw.above i (by omega)
  · -- minLvl
    intro hlev
    rw [hTlvl, hF.2.1] at hlev
    rw [hTlvl, hF.2.1, hTf Pos.head _,
      hfwdh ((if sl.level < lvl then lvl else sl.level) - 1)]
    by_cases hcond : (if sl.level < lvl then lvl else sl.level) - 1 < lvl
        ∧ Pos.head = updTarget lt sl x ((if sl.level < lvl then lvl else sl.level) - 1)
    · rw [if_pos hcond]
      simp
    · rw [if_neg hcond]
      by_cases hc : sl.level < lvl
      · exfalso
        refine hcond ⟨by rw [if_pos hc]; omega, ?_⟩
        rw [if_pos hc]
        exact (updTarget_above hw (by omega)).symm
      · rw [if_neg hc] at hlev ⊢
        exact hw.minLvl hlev
  · -- chains
    intro i
    rw [hTc i, hC i]
    by_cases hi : i < lvl
    · rw [if_pos hi]
      exact @isChainFrom_congr_fields α S { S with length := S.length + 1 }
        rfl rfl i Pos.head _ (hlo i hi)
    · rw [if_neg hi]
      exact @isChainFrom_congr_fields α S { S with length := S.length + 1 }
        rfl rfl i Pos.head _ (hhi i (Nat.le_of_not_lt hi))
  · -- valid
    intro j hj
    rw [hTc 0, hchain0S] at hj
    show j < ({ S with length := S.length + 1 } : SkipList α).arena.length
    rw [hTa, hF.2.2.2.1]
    rcases List.mem_append.mp hj with hjp | hjr
    · exact Nat.lt_succ_of_lt (hvpref j hjp)
    · rcases List.mem_cons.mp hjr with rfl | hjr2
      · omega
      · exact Nat.lt_succ_of_lt (hvrest j hjr2)
  · -- nested
    intro i
    rw [hTc i, hTc 0, hC i, hchain0S]
    have hhnew : heightOf ({ S with length := S.length + 1 } : SkipList α)
        sl.arena.length = lvl := by
      rw [hTht, hH.2]
    have hfiltC : ∀ (l : List Nat), (∀ j ∈ l, j < sl.arena.length) →
        l.filter (fun j => decide (i < heightOf
            ({ S with length := S.length + 1 } : SkipList α) j))
          = l.filter (fun j => decide (i < heightOf sl j)) := by
      intro l hv
      refine List.filter_congr ?_
      intro j hj
      rw [hTht j, hH.1 j (hv j hj)]
    rw [List.filter_append, List.filter_cons]
    rw [hfiltC _ hvpref]
    have htw := wf_takeWhile_filter hl hw x i
    by_cases hi : i < lvl
    · rw [if_pos hi, if_pos (by rw [hhnew]; simpa using hi)]
      rw [hfiltC _ hvrest, ← htw.1, ← htw.2]
    · rw [if_neg hi, if_neg (by rw [hhnew]; simpa using hi)]
      rw [hfiltC _ hvrest, ← htw.1, ← htw.2, List.takeWhile_append_dropWhile]
  · -- sorted
    rw [hTc 0, hchain0S]
    have hs0 : List.Pairwise (fun a b => lt (itemAt sl b) (itemAt sl a) = false)
        ((chainL sl 0).takeWhile (fun j => lt (itemAt sl j) x)
          ++ (chainL sl 0).dropWhile (fun j => lt (itemAt sl j) x)) := by
      rw [← hsplit0]
      exact hw.sorted
    rcases List.pairwise_append.mp hs0 with ⟨hp, hr, hcross⟩
    have hitOld : ∀ m, m < sl.arena.length →
        itemAt ({ S with length := S.length + 1 } : SkipList α) m = itemAt sl m := by
      intro m hm
      rw [hTi m]
      exact hIt.1 m hm
    have hitNew : itemAt ({ S with length := S.length + 1 } : SkipList α)
        sl.arena.length = x := by
      rw [hTi]
      exact hIt.2
    refine List.pairwise_append.mpr ⟨?_, ?_, ?_⟩
    · refine hp.imp_of_mem ?_
      intro a b ha hb hab
      rw [hitOld b (hvpref b hb), hitOld a (hvpref a ha)]
      exact hab
    · refine List.pairwise_cons.mpr ⟨?_, ?_⟩
      · intro b hb
        rw [hitOld b (hvrest b hb), hitNew]
        exact sorted_dropWhile_false hl hw.sorted b hb
      · refine hr.imp_of_mem ?_
        intro a b ha hb hab
        rw [hitOld b (hvrest b hb), hitOld a (hvrest a ha)]
        exact hab
    · intro a ha b hb
      rcases List.mem_cons.mp hb with rfl | hb2
      · rw [hitNew, hitOld a (hvpref a ha)]
        exact hl.asymm (List.mem_takeWhile_imp (p := fun j => lt (itemAt sl j) x) ha)
      · rw [hitOld b (hvrest b hb2), hitOld a (hvpref a ha)]
        exact hcross a ha b hb2
  · -- lenEq
    show ({ S with length := S.length + 1 } : SkipList α).length
      = ((chainL ({ S with length := S.length + 1 } : SkipList α) 0).length : Int)
    rw [hTlen, hTc 0, hchain0S, hF.1, hw.lenEq]
    have hlensplit : ((chainL sl 0).takeWhile (fun j => lt (itemAt sl j) x)).length
        + ((chainL sl 0).dropWhile (fun j => lt (itemAt sl j) x)).length
        = (chainL sl 0).length := by
      rw [← List.length_append, List.takeWhile_append_dropWhile]
    simp only [List.length_append, List.length_cons]
    push_cast
    omega
  · -- the new bottom chain
    rw [hTc 0, hchain0S]
  · -- old items unchanged
    intro m hm
    rw [hTi m]
    exact hIt.1 m hm
  · -- the new item
    rw [hTi]
    exact hIt.2
  · -- length incremented
    rw [hTlen, hF.1]
  · -- maxLevel unchanged
    rw [hTmax, hF.2.2.1]
  · -- arena grown by one
    rw [hTa, hF.2.2.2.1]

/-! ### The unlink loop of `Delete` -/

theorem getD_some_lt {β : Type} {l : List (Option β)} {i : Nat} {j : β}
    (h : l.getD i none = some j) : i < l.length := by
  by_contra hcon
  rw [List.getD_eq_default _ _ (Nat.le_of_not_lt hcon)] at h
  cases h

theorem setInRange_of_fwd_some {α : Type} {s : SkipList α} {p : Pos} {i j : Nat}
    (h : fwd s p i = some j) : setInRange s p i = true := by
  cases p with
  | head =>
    simp only [fwd] at h
    simp only [setInRange]
    simpa using getD_some_lt h
  | node m =>
    simp only [fwd, nodeFwd] at h
    simp only [setInRange]
    cases hm : s.arena.get? m with
    | none => rw [hm] at h; cases h
    | some nd =>
      rw [hm] at h
      simpa using getD_some_lt h

theorem fwd_setFwd_ne {α : Type} (s : SkipList α) {p q : Pos} (i : Nat)
    (v : Option Nat) (hpq : q ≠ p) (i' : Nat) :
    fwd (setFwd s p i v) q i' = fwd s q i' := by
  rw [fwd_setFwd]
  exact if_neg (fun hcon => hpq hcon.1)

theorem unlinkStep_fwd {α : Type} (updAt : Nat → Pos) (j i : Nat)
    (s : SkipList α) (q : Pos) (i' : Nat) :
    fwd (unlinkStep updAt j i s) q i' =
      if i' = i ∧ q = updAt i ∧ fwd s (updAt i) i = some j then nodeFwd s j i
      else fwd s q i' := by
  unfold unlinkStep
  by_cases hg : fwd s (updAt i) i = some j
  · rw [if_pos hg, fwd_setFwd]
    have hir := setInRange_of_fwd_some hg
    by_cases h1 : q = updAt i ∧ i' = i
    · rw [if_pos ⟨h1.1, h1.2, hir⟩, if_pos ⟨h1.2, h1.1, hg⟩]
    · rw [if_neg (fun hcon => h1 ⟨hcon.1, hcon.2.1⟩),
        if_neg (fun hcon => h1 ⟨hcon.2.1, hcon.1⟩)]
  · rw [if_neg hg, if_neg (fun hcon => hg hcon.2.2)]

theorem unlinkStep_fields {α : Type} [Inhabited α] (updAt : Nat → Pos)
    (j i : Nat) (s : SkipList α) :
    (unlinkStep updAt j i s).length = s.length
    ∧ (unlinkStep updAt j i s).level = s.level
    ∧ (unlinkStep updAt j i s).maxLevel = s.maxLevel
    ∧ (unlinkStep updAt j i s).arena.length = s.arena.length
    ∧ (unlinkStep updAt j i s).headF.length = s.headF.length
    ∧ (∀ m, itemAt (unlinkStep updAt j i s) m = itemAt s m)
    ∧ (∀ m, heightOf (unlinkStep updAt j i s) m = heightOf s m) := by
  unfold unlinkStep
  by_cases hg : fwd s (updAt i) i = some j
  · rw [if_pos hg]
    exact ⟨setFwd_length .., setFwd_level .., setFwd_maxLevel ..,
      setFwd_arenaLen .., setFwd_headFLen ..,
      fun m => itemAt_setFwd .., fun m => heightOf_setFwd ..⟩
  · rw [if_neg hg]
    exact ⟨rfl, rfl, rfl, rfl, rfl, fun m => rfl, fun m => rfl⟩

theorem unlinkLevels_fields {α : Type} [Inhabited α] (updAt : Nat → Pos)
    (j : Nat) : ∀ (is : List Nat) (s : SkipList α),
    (unlinkLevels updAt j is s).length = s.length
    ∧ (unlinkLevels updAt j is s).level = s.level
    ∧ (unlinkLevels updAt j is s).maxLevel = s.maxLevel
    ∧ (unlinkLevels updAt j is s).arena.length = s.arena.length
    ∧ (unlinkLevels updAt j is s).headF.length = s.headF.length
    ∧ (∀ m, itemAt (unlinkLevels updAt j is s) m = itemAt s m)
    ∧ (∀ m, heightOf (unlinkLevels updAt j is s) m = heightOf s m) := by
  intro is
  induction is with
  | nil => intro s; exact ⟨rfl, rfl, rfl, rfl, rfl, fun m => rfl, fun m => rfl⟩
  | cons i is ih =>
    intro s
    have h1 := ih (unlinkStep updAt j i s)
    have h2 := unlinkStep_fields updAt j i s
    simp only [unlinkLevels]
    exact ⟨h1.1.trans h2.1, h1.2.1.trans h2.2.1, h1.2.2.1.trans h2.2.2.1,
      h1.2.2.2.1.trans h2.2.2.2.1, h1.2.2.2.2.1.trans h2.2.2.2.2.1,
      fun m => (h1.2.2.2.2.2.1 m).trans (h2.2.2.2.2.2.1 m),
      fun m => (h1.2.2.2.2.2.2 m).trans (h2.2.2.2.2.2.2 m)⟩

theorem unlinkLevels_fwd {α : Type} (updAt : Nat → Pos) (j : Nat) :
    ∀ (is : List Nat) (s : SkipList α), is.Nodup →
      (∀ i ∈ is, updAt i ≠ Pos.node j) →
      ∀ (q : Pos) (i' : Nat),
        fwd (unlinkLevels updAt j is s) q i' =
          if i' ∈ is ∧ q = updAt i' ∧ fwd s (updAt i') i' = some j
          then nodeFwd s j i' else fwd s q i' := by
  intro is
  induction is with
  | nil =>
    intro s _ _ q i'
    simp [unlinkLevels]
  | cons i is ih =>
    intro s hnd hnj q i'
    have hini : i ∉ is := (List.nodup_cons.mp hnd).1
    have hstep := unlinkStep_fwd updAt j i s
    -- node j is never written during the step
    have hstepj : ∀ k, fwd (unlinkStep updAt j i s) (Pos.node j) k
        = fwd s (Pos.node j) k := by
      intro k
      rw [hstep]
      exact if_neg (fun hcon => hnj i (List.mem_cons_self _ _) hcon.2.1.symm)
    have hstepnodeFwd : ∀ k, nodeFwd (unlinkStep updAt j i s) j k
        = nodeFwd s j k := fun k => hstepj k
    simp only [unlinkLevels]
    rw [ih (unlinkStep updAt j i s) hnd.tail
      (fun k hk => hnj k (List.mem_cons_of_mem _ hk)) q i']
    by_cases hmem : i' ∈ is
    · have hii : i' ≠ i := fun hcon => hini (hcon ▸ hmem)
      have hguard : fwd (unlinkStep updAt j i s) (updAt i') i'
          = fwd s (updAt i') i' := by
        rw [hstep]
        exact if_neg (fun hcon => hii hcon.1)
      rw [hguard, hstepnodeFwd i']
      by_cases hc : i' ∈ i :: is ∧ q = updAt i' ∧ fwd s (updAt i') i' = some j
      · rw [if_pos ⟨hmem, hc.2⟩, if_pos hc]
      · have hc2 : ¬(i' ∈ is ∧ q = updAt i' ∧ fwd s (updAt i') i' = some j) :=
          fun hcon => hc ⟨List.mem_cons_of_mem _ hcon.1, hcon.2⟩
        rw [if_neg hc2, if_neg hc, hstep]
        exact if_neg (fun hcon => hii hcon.1)
    · by_cases hii : i' = i
      · rw [hii]
        rw [if_neg (fun hcon => hini hcon.1), hstep]
        by_cases hc : q = updAt i ∧ fwd s (updAt i) i = some j
        · rw [if_pos ⟨rfl, hc⟩, if_pos ⟨List.mem_cons_self _ _, hc⟩]
        · rw [if_neg (fun hcon => hc hcon.2), if_neg (fun hcon => hc hcon.2)]
      · have hc2 : ¬(i' ∈ is ∧ q = updAt i' ∧
            fwd (unlinkStep updAt j i s) (updAt i') i' = some j) :=
          fun hcon => hmem hcon.1
        have hc3 : ¬(i' ∈ i :: is ∧ q = updAt i' ∧ fwd s (updAt i') i' = some j) := by
          intro hcon
          rcases List.mem_cons.mp hcon.1 with h | h
          · exact hii h
          · exact hmem h
        rw [if_neg hc2, if_neg hc3, hstep]
        exact if_neg (fun hcon => hii hcon.1)

/-! ### The level-shrink loop -/

theorem shrinkLevel_spec (hf : List (Option Nat)) : ∀ l : Nat,
    shrinkLevel hf l ≤ l
    ∧ (1 ≤ l → 1 ≤ shrinkLevel hf l)
    ∧ (∀ i, shrinkLevel hf l ≤ i → i < l → hf.getD i none = none)
    ∧ (2 ≤ shrinkLevel hf l → hf.getD (shrinkLevel hf l - 1) none ≠ none) := by
  intro l
  induction l using Nat.strong_induction_on with
  | _ l ih =>
    match l with
    | 0 =>
      have h0 : shrinkLevel hf 0 = 0 := rfl
      rw [h0]
      exact ⟨le_rfl, by omega, fun i h1 h2 => absurd h2 (by omega),
        fun h => absurd h (by omega)⟩
    | 1 =>
      have h1 : shrinkLevel hf 1 = 1 := rfl
      rw [h1]
      exact ⟨le_rfl, fun _ => le_rfl, fun i ha hb => absurd hb (by omega),
        fun h => absurd h (by omega)⟩
    | l + 2 =>
      have hdef : shrinkLevel hf (l + 2)
          = if hf.getD (l + 1) none = none then shrinkLevel hf (l + 1) else l + 2 := rfl
      by_cases hc : hf.getD (l + 1) none = none
      · have heq : shrinkLevel hf (l + 2) = shrinkLevel hf (l + 1) := by
          rw [hdef, if_pos hc]
        rcases ih (l + 1) (by omega) with ⟨ha, hb, hcc, hd⟩
        rw [heq]
        refine ⟨by omega, fun _ => hb (by omega), ?_, hd⟩
        intro i hi1 hi2
        by_cases hi : i = l + 1
        · rw [hi]
          exact hc
        · exact hcc i hi1 (by omega)
      · have heq : shrinkLevel hf (l + 2) = l + 2 := by
          rw [hdef, if_neg hc]
        rw [heq]
        refine ⟨le_rfl, fun _ => by omega, fun i hi1 hi2 => absurd hi2 (by omega), ?_⟩
        intro _
        simpa using hc

/-! ### `Get` and the found/not-found analysis -/

theorem equal_eq_true_iff {α : Type} (lt : α → α → Bool) (a b : α) :
    equal lt a b = true ↔ lt a b = false ∧ lt b a = false := by
  simp [equal]

/-- If some stored item compares equal to `x`, the dropped suffix of
the bottom chain starts with a node whose item compares equal to `x`. -/
theorem delete_presence {α : Type} [Inhabited α] {lt : α → α → Bool}
    (hl : LawfulLess lt) {sl : SkipList α} (hw : Wf lt sl) (x : α)
    (hpres : ∃ y ∈ contents sl, equal lt y x = true) :
    ∃ j0 tl, (chainL sl 0).dropWhile (fun j => lt (itemAt sl j) x) = j0 :: tl
      ∧ equal lt (itemAt sl j0) x = true := by
  obtain ⟨y, hy, hyeq⟩ := hpres
  obtain ⟨m, hm, rfl⟩ := List.mem_map.mp hy
  rcases (equal_eq_true_iff lt (itemAt sl m) x).mp hyeq with ⟨hmx, hxm⟩
  have hsplit : chainL sl 0
      = (chainL sl 0).takeWhile (fun j => lt (itemAt sl j) x)
        ++ (chainL sl 0).dropWhile (fun j => lt (itemAt sl j) x) :=
    (List.takeWhile_append_dropWhile _ _).symm
  have hmrest : m ∈ (chainL sl 0).dropWhile (fun j => lt (itemAt sl j) x) := by
    rw [hsplit] at hm
    rcases List.mem_append.mp hm with hmp | hmr
    · exact absurd (List.mem_takeWhile_imp (p := fun j => lt (itemAt sl j) x) hmp)
        (by simp [hmx])
    · exact hmr
  rcases hdw : (chainL sl 0).dropWhile (fun j => lt (itemAt sl j) x)
    with _ | ⟨j0, tl⟩
  · rw [hdw] at hmrest
    cases hmrest
  · refine ⟨j0, tl, rfl, ?_⟩
    have hj0 : lt (itemAt sl j0) x = false := by
      refine sorted_dropWhile_false hl hw.sorted j0 ?_
      rw [hdw]
      exact List.mem_cons_self _ _
    refine (equal_eq_true_iff lt (itemAt sl j0) x).mpr ⟨hj0, ?_⟩
    rw [hdw] at hmrest
    rcases List.mem_cons.mp hmrest with rfl | hmtl
    · exact hxm
    · have hpw : List.Pairwise (fun a b => lt (itemAt sl b) (itemAt sl a) = false)
          ((chainL sl 0).dropWhile (fun j => lt (itemAt sl j) x)) :=
        List.Pairwise.sublist (List.dropWhile_sublist _) hw.sorted
      rw [hdw] at hpw
      have hrel : lt (itemAt sl m) (itemAt sl j0) = false :=
        List.rel_of_pairwise_cons hpw hmtl
      exact hl.negTrans x (itemAt sl m) (itemAt sl j0) hxm hrel

/-- The descent's final forward link, as used by `Get`/`Delete`. -/
theorem descend_fwd0 {α : Type} [Inhabited α] {lt : α → α → Bool}
    (hl : LawfulLess lt) {sl : SkipList α} (hw : Wf lt sl) (x : α) :
    fwd sl (descend lt sl x sl.level Pos.head).1 0
      = ((chainL sl 0).dropWhile (fun j => lt (itemAt sl j) x)).head? := by
  rw [descend_final hl hw x, wf_fwd_updTarget hw x 0]

theorem Get_found {α : Type} [Inhabited α] {lt : α → α → Bool}
    (hl : LawfulLess lt) {sl : SkipList α} (hw : Wf lt sl) (x : α)
    (hpres : ∃ y ∈ contents sl, equal lt y x = true) :
    ∃ z, Get lt sl x = some z ∧ equal lt z x = true := by
  obtain ⟨j0, tl, hdw, heq⟩ := delete_presence hl hw x hpres
  have hj : fwd sl (descend lt sl x sl.level Pos.head).1 0 = some j0 := by
    rw [descend_fwd0 hl hw x, hdw]
    rfl
  refine ⟨itemAt sl j0, ?_, heq⟩
  unfold Get
  rw [hj]
  show (if equal lt (itemAt sl j0) x = true then some (itemAt sl j0) else none)
    = some (itemAt sl j0)
  rw [if_pos heq]

theorem Get_absent {α : Type} [Inhabited α] {lt : α → α → Bool}
    (hl : LawfulLess lt) {sl : SkipList α} (hw : Wf lt sl) (x : α)
    (habs : ∀ y ∈ contents sl, equal lt y x = false) :
    Get lt sl x = none := by
  unfold Get
  rcases hdw : (chainL sl 0).dropWhile (fun j => lt (itemAt sl j) x)
    with _ | ⟨j0, tl⟩
  · have hj : fwd sl (descend lt sl x sl.level Pos.head).1 0 = none := by
      rw [descend_fwd0 hl hw x, hdw]
      rfl
    rw [hj]
  · have hj : fwd sl (descend lt sl x sl.level Pos.head).1 0 = some j0 := by
      rw [descend_fwd0 hl hw x, hdw]
      rfl
    rw [hj]
    have hj0c : j0 ∈ chainL sl 0 := by
      have hsub := List.dropWhile_sublist (l := chainL sl 0)
        (fun j => lt (itemAt sl j) x)
      rw [hdw] at hsub
      exact hsub.mem (List.mem_cons_self _ _)
    have hne : equal lt (itemAt sl j0) x = false :=
      habs _ (List.mem_map.mpr ⟨j0, hj0c, rfl⟩)
    show (if equal lt (itemAt sl j0) x = true then some (itemAt sl j0) else none)
      = none
    rw [if_neg (by rw [hne]; exact Bool.false_ne_true)]

theorem Delete_absent {α : Type} [Inhabited α] {lt : α → α → Bool}
    (hl : LawfulLess lt) {sl : SkipList α} (hw : Wf lt sl) (x : α)
    (habs : ∀ y ∈ contents sl, equal lt y x = false) :
    Delete lt sl x = (none, sl) := by
  unfold Delete
  rcases hdw : (chainL sl 0).dropWhile (fun j => lt (itemAt sl j) x)
    with _ | ⟨j0, tl⟩
  · have hj : fwd sl (descend lt sl x sl.level Pos.head).1 0 = none := by
      rw [descend_fwd0 hl hw x, hdw]
      rfl
    rw [hj]
  · have hj : fwd sl (descend lt sl x sl.level Pos.head).1 0 = some j0 := by
      rw [descend_fwd0 hl hw x, hdw]
      rfl
    rw [hj]
    have hj0c : j0 ∈ chainL sl 0 := by
      have hsub := List.dropWhile_sublist (l := chainL sl 0)
        (fun j => lt (itemAt sl j) x)
      rw [hdw] at hsub
      exact hsub.mem (List.mem_cons_self _ _)
    have hne : equal lt (itemAt sl j0) x = false :=
      habs _ (List.mem_map.mpr ⟨j0, hj0c, rfl⟩)
    show (if equal lt (itemAt sl j0) x = true then _ else ((none : Option α), sl))
      = ((none : Option α), sl)
    rw [if_neg (by rw [hne]; exact Bool.false_ne_true)]

theorem Delete_found_eq {α : Type} [Inhabited α] {lt : α → α → Bool}
    (hl : LawfulLess lt) {sl : SkipList α} (hw : Wf lt sl) (x : α)
    {j0 : Nat} {tl : List Nat}
    (hdw : (chainL sl 0).dropWhile (fun j => lt (itemAt sl j) x) = j0 :: tl)
    (heq : equal lt (itemAt sl j0) x = true) :
    Delete lt sl x = (some (itemAt sl j0),
      { delState lt sl x j0 with
        level := shrinkLevel (delState lt sl x j0).headF (delState lt sl x j0).level,
        length := (delState lt sl x j0).length - 1 }) := by
  unfold Delete
  have hj : fwd sl (descend lt sl x sl.level Pos.head).1 0 = some j0 := by
    rw [descend_fwd0 hl hw x, hdw]
    rfl
  rw [hj]
  show (if equal lt (itemAt sl j0) x = true then _ else _) = _
  rw [if_pos heq]

/-! ### Characterizing the unlinked state of `Delete` -/

theorem updTarget_ne_j0 {α : Type} [Inhabited α] {lt : α → α → Bool}
    {sl : SkipList α} {x : α} {j0 : Nat}
    (hPj0 : lt (itemAt sl j0) x = false) :
    ∀ i, updTarget lt sl x i ≠ Pos.node j0 := by
  intro i hcon
  rcases updTarget_cases lt sl x i with h | ⟨m, h, hmt, _⟩
  · rw [h] at hcon
    cases hcon
  · rw [h] at hcon
    cases hcon
    exact absurd (List.mem_takeWhile_imp (p := fun j => lt (itemAt sl j) x) hmt)
      (by simp [hPj0])

theorem delState_fields {α : Type} [Inhabited α] (lt : α → α → Bool)
    (sl : SkipList α) (x : α) (j0 : Nat) :
    (delState lt sl x j0).length = sl.length
    ∧ (delState lt sl x j0).level = sl.level
    ∧ (delState lt sl x j0).maxLevel = sl.maxLevel
    ∧ (delState lt sl x j0).arena.length = sl.arena.length
    ∧ (delState lt sl x j0).headF.length = sl.headF.length
    ∧ (∀ m, itemAt (delState lt sl x j0) m = itemAt sl m)
    ∧ (∀ m, heightOf (delState lt sl x j0) m = heightOf sl m) :=
  unlinkLevels_fields _ _ _ _

theorem delState_fwd {α : Type} [Inhabited α] {lt : α → α → Bool}
    (hl : LawfulLess lt) {sl : SkipList α} (hw : Wf lt sl) (x : α) {j0 : Nat}
    (hPj0 : lt (itemAt sl j0) x = false) (q : Pos) (i' : Nat) :
    fwd (delState lt sl x j0) q i' =
      if i' ∈ List.range sl.level ∧ q = updTarget lt sl x i'
          ∧ fwd sl (updTarget lt sl x i') i' = some j0
      then nodeFwd sl j0 i' else fwd sl q i' := by
  unfold delState
  rw [unlinkLevels_fwd (updFn (descend lt sl x sl.level Pos.head).2) j0
    (List.range sl.level) sl (List.nodup_range _)
    (fun i _ => by rw [updFn_descend hl hw x i]; exact updTarget_ne_j0 hPj0 i) q i']
  rw [updFn_descend hl hw x i']

theorem del_guard {α : Type} [Inhabited α] {lt : α → α → Bool}
    (hl : LawfulLess lt) {sl : SkipList α} (hw : Wf lt sl) (x : α)
    {j0 : Nat} {tl : List Nat}
    (hdw : (chainL sl 0).dropWhile (fun j => lt (itemAt sl j) x) = j0 :: tl) :
    ∀ i, fwd sl (updTarget lt sl x i) i
      = if i < heightOf sl j0 then some j0
        else (tl.filter (fun m => decide (i < heightOf sl m))).head? := by
  intro i
  rw [wf_fwd_updTarget hw x i, (wf_takeWhile_filter hl hw x i).2, hdw, List.filter_cons]
  by_cases hi : i < heightOf sl j0
  · rw [if_pos (by simpa using hi), if_pos hi]
    rfl
  · rw [if_neg (by simpa using hi), if_neg hi]

theorem del_guard_ne {α : Type} [Inhabited α] {lt : α → α → Bool}
    (hl : LawfulLess lt) {sl : SkipList α} (hw : Wf lt sl) (x : α)
    {j0 : Nat} {tl : List Nat}
    (hdw : (chainL sl 0).dropWhile (fun j => lt (itemAt sl j) x) = j0 :: tl) :
    ∀ i, heightOf sl j0 ≤ i → fwd sl (updTarget lt sl x i) i ≠ some j0 := by
  have hj0tl : j0 ∉ tl := by
    have hnd : ((chainL sl 0).dropWhile (fun j => lt (itemAt sl j) x)).Nodup :=
      List.Nodup.sublist (List.dropWhile_sublist _) (wf_nodup hw 0)
    rw [hdw] at hnd
    exact (List.nodup_cons.mp hnd).1
  intro i hi hcon
  rw [del_guard hl hw x hdw i, if_neg (by omega)] at hcon
  rcases hft : tl.filter (fun m => decide (i < heightOf sl m)) with _ | ⟨r, rs⟩
  · rw [hft] at hcon
    cases hcon
  · rw [hft] at hcon
    have hrj : r = j0 := by
      cases hcon
      rfl
    have : r ∈ tl := (List.mem_filter.mp (by rw [hft]; exact List.mem_cons_self r rs)).1
    rw [hrj] at this
    exact hj0tl this

theorem delState_chain {α : Type} [Inhabited α] {lt : α → α → Bool}
    (hl : LawfulLess lt) {sl : SkipList α} (hw : Wf lt sl) (x : α)
    {j0 : Nat} {tl : List Nat}
    (hdw : (chainL sl 0).dropWhile (fun j => lt (itemAt sl j) x) = j0 :: tl)
    (hPj0 : lt (itemAt sl j0) x = false) (i : Nat) :
    IsChainFrom (delState lt sl x j0) i Pos.head
      ((chainL sl i).takeWhile (fun j => lt (itemAt sl j) x)
        ++ tl.filter (fun m => decide (i < heightOf sl m))) := by
  have hdfwd := delState_fwd hl hw x hPj0
  have hj0c : j0 ∈ chainL sl 0 := by
    have hsub := List.dropWhile_sublist (l := chainL sl 0)
      (fun j => lt (itemAt sl j) x)
    rw [hdw] at hsub
    exact hsub.mem (List.mem_cons_self _ _)
  have hh0le : heightOf sl j0 ≤ sl.level := wf_height_le_level hw hj0c
  have hsplit : chainL sl i
      = (chainL sl i).takeWhile (fun j => lt (itemAt sl j) x)
        ++ (chainL sl i).dropWhile (fun j => lt (itemAt sl j) x) :=
    (List.takeWhile_append_dropWhile _ _).symm
  have hrest_i : (chainL sl i).dropWhile (fun j => lt (itemAt sl j) x)
      = (j0 :: tl).filter (fun m => decide (i < heightOf sl m)) := by
    rw [(wf_takeWhile_filter hl hw x i).2, hdw]
  have hnd : ((chainL sl i).takeWhile (fun j => lt (itemAt sl j) x)
      ++ (chainL sl i).dropWhile (fun j => lt (itemAt sl j) x)).Nodup := by
    rw [← hsplit]
    exact wf_nodup hw i
  have hUhead : (chainL sl i).takeWhile (fun j => lt (itemAt sl j) x) = [] →
      updTarget lt sl x i = Pos.head := by
    intro hpfe
    show posAfter Pos.head ((chainL sl i).takeWhile (fun j => lt (itemAt sl j) x))
      = Pos.head
    rw [hpfe]
    rfl
  have hUlast : ∀ hne : (chainL sl i).takeWhile (fun j => lt (itemAt sl j) x) ≠ [],
      updTarget lt sl x i
        = Pos.node (((chainL sl i).takeWhile (fun j => lt (itemAt sl j) x)).getLast hne) :=
    fun hne => posAfter_head_ne _ hne
  have hrs_ne : ∀ m ∈ (chainL sl i).dropWhile (fun j => lt (itemAt sl j) x),
      Pos.node m ≠ updTarget lt sl x i := by
    intro m hm hcon
    by_cases hpfe : (chainL sl i).takeWhile (fun j => lt (itemAt sl j) x) = []
    · rw [hUhead hpfe] at hcon
      cases hcon
    · rw [hUlast hpfe] at hcon
      have hmeq : m
          = ((chainL sl i).takeWhile (fun j => lt (itemAt sl j) x)).getLast hpfe := by
        cases hcon
        rfl
      have hdisj := (List.nodup_append.mp hnd).2.2
      exact hdisj (hmeq ▸ List.getLast_mem hpfe) hm
  by_cases hih : i < heightOf sl j0
  · -- the node is linked at this level and gets unlinked
    have hilevel : i < sl.level := lt_of_lt_of_le hih hh0le
    have hrest_cons : (chainL sl i).dropWhile (fun j => lt (itemAt sl j) x)
        = j0 :: tl.filter (fun m => decide (i < heightOf sl m)) := by
      rw [hrest_i, List.filter_cons, if_pos (by simpa using hih)]
    have hguard : fwd sl (updTarget lt sl x i) i = some j0 := by
      rw [del_guard hl hw x hdw i, if_pos hih]
    have hseg : Seg sl i Pos.head
        ((chainL sl i).takeWhile (fun j => lt (itemAt sl j) x))
        (updTarget lt sl x i) := by
      have h1 : IsChainFrom sl i Pos.head
          ((chainL sl i).takeWhile (fun j => lt (itemAt sl j) x)
            ++ (chainL sl i).dropWhile (fun j => lt (itemAt sl j) x)) := by
        rw [← hsplit]
        exact hw.chains i
      exact seg_of_chain h1
    have hsegP : Seg (delState lt sl x j0) i Pos.head
        ((chainL sl i).takeWhile (fun j => lt (itemAt sl j) x))
        (updTarget lt sl x i) := by
      refine seg_congr hseg ?_ ?_
      · intro hne0
        rw [hdfwd Pos.head i]
        refine if_neg (fun hcon => ?_)
        rw [hUlast hne0] at hcon
        cases hcon.2.1
      · intro m hm
        rw [hdfwd (Pos.node m) i]
        refine if_neg (fun hcon => ?_)
        have hmp : m ∈ (chainL sl i).takeWhile (fun j => lt (itemAt sl j) x) :=
          List.Sublist.mem hm (List.dropLast_sublist _)
        have hne0 : (chainL sl i).takeWhile (fun j => lt (itemAt sl j) x) ≠ [] := by
          intro hcon2
          rw [hcon2] at hmp
          cases hmp
        rw [hUlast hne0] at hcon
        have hmeq : m
            = ((chainL sl i).takeWhile (fun j => lt (itemAt sl j) x)).getLast hne0 := by
          cases hcon.2.1
          rfl
        have hpnd : ((chainL sl i).takeWhile (fun j => lt (itemAt sl j) x)).Nodup :=
          List.Nodup.sublist (List.takeWhile_sublist _) (wf_nodup hw i)
        have hdec := List.dropLast_append_getLast hne0
        rw [← hdec] at hpnd
        exact (List.nodup_append.mp hpnd).2.2 (hmeq ▸ hm) (List.mem_singleton_self _)
    have hchdrop : IsChainFrom sl i (updTarget lt sl x i)
        (j0 :: tl.filter (fun m => decide (i < heightOf sl m))) := by
      have h1 : IsChainFrom sl i Pos.head
          ((chainL sl i).takeWhile (fun j => lt (itemAt sl j) x)
            ++ (chainL sl i).dropWhile (fun j => lt (itemAt sl j) x)) := by
        rw [← hsplit]
        exact hw.chains i
      have h2 := isChainFrom_drop h1
      rw [hrest_cons] at h2
      exact h2
    cases hchdrop with
    | cons hfj0 htail =>
      have hnodej0 : fwd sl (Pos.node j0) i
          = (tl.filter (fun m => decide (i < heightOf sl m))).head? :=
        isChainFrom_head? htail
      have hlink : fwd (delState lt sl x j0) (updTarget lt sl x i) i
          = (tl.filter (fun m => decide (i < heightOf sl m))).head? := by
        rw [hdfwd (updTarget lt sl x i) i,
          if_pos ⟨List.mem_range.mpr hilevel, rfl, hguard⟩]
        exact hnodej0
      have hrestP : IsChainFrom (delState lt sl x j0) i (updTarget lt sl x i)
          (tl.filter (fun m => decide (i < heightOf sl m))) := by
        rcases hft : tl.filter (fun m => decide (i < heightOf sl m))
          with _ | ⟨r, rs⟩
        · refine IsChainFrom.nil _ ?_
          rw [hlink, hft]
          rfl
        · rw [hft] at htail
          cases htail with
          | cons hfr hrs =>
            have hmemsub : ∀ m, m ∈ r :: rs →
                m ∈ (chainL sl i).dropWhile (fun j => lt (itemAt sl j) x) := by
              intro m hm
              rw [hrest_cons]
              refine List.mem_cons_of_mem _ ?_
              rw [hft]
              exact hm
            have hrs' : IsChainFrom (delState lt sl x j0) i (Pos.node r) rs := by
              refine isChainFrom_congr hrs ?_ ?_
              · rw [hdfwd (Pos.node r) i]
                exact if_neg (fun hcon =>
                  hrs_ne r (hmemsub r (List.mem_cons_self _ _)) hcon.2.1)
              · intro m hm
                rw [hdfwd (Pos.node m) i]
                exact if_neg (fun hcon =>
                  hrs_ne m (hmemsub m (List.mem_cons_of_mem _ hm)) hcon.2.1)
            refine IsChainFrom.cons ?_ hrs'
            rw [hlink, hft]
            rfl
      have hfinal := chain_of_seg hsegP hrestP
      exact hfinal
  · -- the node is not linked at this level: nothing changes
    have hng : ∀ q, ¬(i ∈ List.range sl.level ∧ q = updTarget lt sl x i
        ∧ fwd sl (updTarget lt sl x i) i = some j0) :=
      fun q hcon => del_guard_ne hl hw x hdw i (Nat.le_of_not_lt hih) hcon.2.2
    have hchainEq : chainL sl i
        = (chainL sl i).takeWhile (fun j => lt (itemAt sl j) x)
          ++ tl.filter (fun m => decide (i < heightOf sl m)) := by
      conv_lhs => rw [hsplit]
      rw [hrest_i, List.filter_cons, if_neg (by simpa using hih)]
    have h1 : IsChainFrom (delState lt sl x j0) i Pos.head (chainL sl i) := by
      refine isChainFrom_congr (hw.chains i) ?_ ?_
      · rw [hdfwd Pos.head i]
        exact if_neg (hng Pos.head)
      · intro j hj
        rw [hdfwd (Pos.node j) i]
        exact if_neg (hng (Pos.node j))
    rw [hchainEq] at h1
    exact h1

theorem delState_chainL {α : Type} [Inhabited α] {lt : α → α → Bool}
    (hl : LawfulLess lt) {sl : SkipList α} (hw : Wf lt sl) (x : α)
    {j0 : Nat} {tl : List Nat}
    (hdw : (chainL sl 0).dropWhile (fun j => lt (itemAt sl j) x) = j0 :: tl)
    (hPj0 : lt (itemAt sl j0) x = false) (i : Nat) :
    chainL (delState lt sl x j0) i
      = (chainL sl i).takeWhile (fun j => lt (itemAt sl j) x)
        ++ tl.filter (fun m => decide (i < heightOf sl m)) := by
  have hfield := (delState_fields lt sl x j0).2.2.2.1
  show chainFrom (delState lt sl x j0) i
    ((delState lt sl x j0).arena.length + 1) Pos.head = _
  rw [hfield]
  refine chainFrom_eq (delState_chain hl hw x hdw hPj0 i) ?_
  have htlsub : (tl.filter (fun m => decide (i < heightOf sl m))).Sublist
      (chainL sl 0) := by
    have h2 : tl.Sublist ((chainL sl 0).dropWhile (fun j => lt (itemAt sl j) x)) := by
      rw [hdw]
      exact List.sublist_cons_self _ _
    exact ((List.filter_sublist tl).trans h2).trans (List.dropWhile_sublist _)
  have h3 : (tl.filter (fun m => decide (i < heightOf sl m))).length
      ≤ (chainL sl 0).length := htlsub.length_le
  have h4 := wf_chain0_len_le hw
  have h5 : ((chainL sl i).takeWhile (fun j => lt (itemAt sl j) x)).length
      ≤ (chainL sl i).length := (List.takeWhile_sublist _).length_le
  have h6 := wf_chain_len_le hw i
  -- the two parts are disjoint pieces of one nodup chain, so the sum is at most
  -- the arena size
  have hnd := isChainFrom_nodup (delState_chain hl hw x hdw hPj0 i)
  have hvalid : ∀ j ∈ (chainL sl i).takeWhile (fun j => lt (itemAt sl j) x)
      ++ tl.filter (fun m => decide (i < heightOf sl m)), j < sl.arena.length := by
    intro j hj
    rcases List.mem_append.mp hj with hjp | hjt
    · exact wf_valid_chain hw j (List.Sublist.mem hjp (List.takeWhile_sublist _))
    · exact hw.valid j (List.Sublist.mem hjt htlsub)
  have := length_le_of_nodup_lt hnd hvalid
  omega

/-- Everything a successful `Delete` does: returns an item equal to
the probe, preserves well-formedness, removes exactly the first
non-below node from the bottom chain, decrements the length. -/
theorem Delete_found_spec {α : Type} [Inhabited α] {lt : α → α → Bool}
    (hl : LawfulLess lt) {sl : SkipList α} (hw : Wf lt sl) (x : α)
    (hpres : ∃ y ∈ contents sl, equal lt y x = true) :
    ∃ z, (Delete lt sl x).1 = some z ∧ equal lt z x = true
    ∧ Wf lt (Delete lt sl x).2
    ∧ (Delete lt sl x).2.length = sl.length - 1
    ∧ (Delete lt sl x).2.maxLevel = sl.maxLevel
    ∧ contents (Delete lt sl x).2
        = (contents sl).takeWhile (fun y => lt y x)
          ++ ((contents sl).dropWhile (fun y => lt y x)).tail := by
  obtain ⟨j0, tl, hdw, heq⟩ := delete_presence hl hw x hpres
  have hPj0 : lt (itemAt sl j0) x = false :=
    ((equal_eq_true_iff lt (itemAt sl j0) x).mp heq).1
  have hj0c : j0 ∈ chainL sl 0 := by
    have hsub := List.dropWhile_sublist (l := chainL sl 0)
      (fun j => lt (itemAt sl j) x)
    rw [hdw] at hsub
    exact hsub.mem (List.mem_cons_self _ _)
  have htlc : ∀ m ∈ tl, m ∈ chainL sl 0 := by
    intro m hm
    have hsub := List.dropWhile_sublist (l := chainL sl 0)
      (fun j => lt (itemAt sl j) x)
    rw [hdw] at hsub
    exact hsub.mem (List.mem_cons_of_mem _ hm)
  have hfil0 : tl.filter (fun m => decide (0 < heightOf sl m)) = tl := by
    refine List.filter_eq_self.mpr ?_
    intro m hm
    have := wf_height_gt hw (htlc m hm)
    simpa using this
  have hsplit0 : chainL sl 0
      = (chainL sl 0).takeWhile (fun j => lt (itemAt sl j) x) ++ j0 :: tl := by
    conv_lhs => rw [(List.takeWhile_append_dropWhile
      (fun j => lt (itemAt sl j) x) (chainL sl 0)).symm]
    rw [hdw]
  have hDf := delState_fields lt sl x j0
  have hDc := fun i => delState_chainL hl hw x hdw hPj0 i
  have hDchain := fun i => delState_chain hl hw x hdw hPj0 i
  have hDfwd := delState_fwd hl hw x hPj0
  rw [Delete_found_eq hl hw x hdw heq]
  set S := delState lt sl x j0 with hS
  have hsh := shrinkLevel_spec S.headF S.level
  have hTh : ({ S with level := shrinkLevel S.headF S.level, length := S.length - 1 } : SkipList α).headF = S.headF := rfl
  have hTa : ({ S with level := shrinkLevel S.headF S.level, length := S.length - 1 } : SkipList α).arena = S.arena := rfl
  have hTc : ∀ i, chainL ({ S with level := shrinkLevel S.headF S.level, length := S.length - 1 } : SkipList α) i = chainL S i :=
    fun i => chainL_congr_fields hTh hTa i
  have hTi : ∀ m, itemAt ({ S with level := shrinkLevel S.headF S.level, length := S.length - 1 } : SkipList α) m = itemAt sl m :=
    fun m => (itemAt_congr_fields hTa m).trans (hDf.2.2.2.2.2.1 m)
  have hTht : ∀ m, heightOf ({ S with level := shrinkLevel S.headF S.level, length := S.length - 1 } : SkipList α) m = heightOf sl m :=
    fun m => (heightOf_congr_fields hTa m).trans (hDf.2.2.2.2.2.2 m)
  have hTf : ∀ p i, fwd ({ S with level := shrinkLevel S.headF S.level, length := S.length - 1 } : SkipList α) p i = fwd S p i :=
    fun p i => fwd_congr_fields hTh hTa p i
  refine ⟨itemAt sl j0, rfl, heq,
    ⟨?_, ?_, ?_, ?_, ?_, ?_, ?_, ?_, ?_, ?_⟩, ?_, ?_, ?_⟩
  · -- headLen
    show S.headF.length = S.maxLevel
    rw [hDf.2.2.2.2.1, hDf.2.2.1, hw.headLen]
  · -- maxOk
    show 2 ≤ S.maxLevel
    rw [hDf.2.2.1]
    exact hw.maxOk
  · -- levelLe
    show shrinkLevel S.headF S.level ≤ S.maxLevel
    rw [hDf.2.2.1]
    refine le_trans hsh.1 ?_
    rw [hDf.2.1]
    exact hw.levelLe
  · -- above
    intro i hi
    show fwd _ Pos.head i = none
    rw [hTf Pos.head i]
    by_cases hsl : sl.level ≤ i
    · rw [hDfwd Pos.head i]
      rw [if_neg (fun hcon => by
        have := List.mem_range.mp hcon.1
        omega)]
      exact hw.above i hsl
    · show S.headF.getD i none = none
      refine hsh.2.2.1 i hi ?_
      rw [hDf.2.1]
      omega
  · -- minLvl
    intro hlev
    show fwd _ Pos.head (shrinkLevel S.headF S.level - 1) ≠ none
    rw [hTf Pos.head _]
    show S.headF.getD (shrinkLevel S.headF S.level - 1) none ≠ none
    exact hsh.2.2.2 hlev
  · -- chains
    intro i
    rw [hTc i, hDc i]
    exact @isChainFrom_congr_fields α S
      { S with level := shrinkLevel S.headF S.level, length := S.length - 1 }
      rfl rfl i Pos.head _ (hDchain i)
  · -- valid
    intro j hj
    rw [hTc 0, hDc 0] at hj
    show j < S.arena.length
    rw [hDf.2.2.2.1]
    rcases List.mem_append.mp hj with hjp | hjt
    · exact wf_valid_chain hw j (List.Sublist.mem hjp (List.takeWhile_sublist _))
    · exact hw.valid j (htlc j (List.mem_filter.mp hjt).1)
  · -- nested
    intro i
    rw [hTc i, hTc 0, hDc i, hDc 0, hfil0]
    have hfiltC : ∀ (l : List Nat),
        l.filter (fun j => decide (i < heightOf ({ S with level := shrinkLevel S.headF S.level, length := S.length - 1 } : SkipList α) j))
          = l.filter (fun j => decide (i < heightOf sl j)) := by
      intro l
      refine List.filter_congr ?_
      intro j _
      rw [hTht j]
    rw [List.filter_append, hfiltC, hfiltC]
    congr 1
    · exact (wf_takeWhile_filter hl hw x i).1
  · -- sorted
    rw [hTc 0, hDc 0, hfil0]
    have hsub : ((chainL sl 0).takeWhile (fun j => lt (itemAt sl j) x) ++ tl).Sublist
        ((chainL sl 0).takeWhile (fun j => lt (itemAt sl j) x) ++ j0 :: tl) :=
      (List.append_sublist_append_left _).mpr (List.sublist_cons_self _ _)
    have hps0 : List.Pairwise (fun a b => lt (itemAt sl b) (itemAt sl a) = false)
        ((chainL sl 0).takeWhile (fun j => lt (itemAt sl j) x) ++ j0 :: tl) := by
      rw [← hsplit0]
      exact hw.sorted
    have hps : List.Pairwise (fun a b => lt (itemAt sl b) (itemAt sl a) = false)
        ((chainL sl 0).takeWhile (fun j => lt (itemAt sl j) x) ++ tl) :=
      List.Pairwise.sublist hsub hps0
    refine hps.imp_of_mem ?_
    intro a b _ _ hab
    rw [hTi a, hTi b]
    exact hab
  · -- lenEq
    show S.length - 1 = _
    rw [hTc 0, hDc 0, hfil0, hDf.1, hw.lenEq]
    have hlen := congrArg List.length hsplit0
    simp only [List.length_append, List.length_cons] at hlen ⊢
    push_cast
    omega
  · -- length
    show S.length - 1 = sl.length - 1
    rw [hDf.1]
  · -- maxLevel
    show S.maxLevel = sl.maxLevel
    rw [hDf.2.2.1]
  · -- contents
    show itemsAt _ (chainL _ 0) = _
    rw [hTc 0, hDc 0, hfil0]
    unfold itemsAt
    rw [List.map_append]
    have hmap : ∀ (l : List Nat), l.map (itemAt ({ S with level := shrinkLevel S.headF S.level, length := S.length - 1 } : SkipList α)) = l.map (itemAt sl) := by
      intro l
      refine List.map_congr_left ?_
      intro m _
      exact hTi m
    rw [hmap, hmap]
    congr 1
    · show ((chainL sl 0).takeWhile (fun j => lt (itemAt sl j) x)).map (itemAt sl)
        = (contents sl).takeWhile (fun y => lt y x)
      unfold contents itemsAt
      rw [List.takeWhile_map]
      rfl
    · show tl.map (itemAt sl) = ((contents sl).dropWhile (fun y => lt y x)).tail
      unfold contents itemsAt
      rw [List.dropWhile_map]
      have : (chainL sl 0).dropWhile ((fun y => lt y x) ∘ itemAt sl) = j0 :: tl := hdw
      rw [this]
      rfl

/-! ### `PopFirst` is `Delete` of the minimum -/

theorem foldl_perm_eq {β γ : Type} (f : γ → β → γ)
    (hcomm : ∀ c a b, f (f c a) b = f (f c b) a) {l1 l2 : List β}
    (hp : l1.Perm l2) : ∀ c, l1.foldl f c = l2.foldl f c := by
  induction hp with
  | nil => intro c; rfl
  | cons a _ ih =>
    intro c
    simp only [List.foldl_cons]
    exact ih _
  | swap a b l =>
    intro c
    simp only [List.foldl_cons]
    rw [hcomm]
  | trans _ _ ih1 ih2 =>
    intro c
    rw [ih1, ih2]

theorem nodeFwd_congr_arena {α : Type} {s s0 : SkipList α}
    (ha : s.arena = s0.arena) (j i : Nat) : nodeFwd s j i = nodeFwd s0 j i := by
  simp [nodeFwd, ha]

/-- The head-rewiring fold both loops compute, with guards and values
read from the original state. -/
def headRewire {α : Type} (s0 : SkipList α) (j0 : Nat)
    (hf : List (Option Nat)) (i : Nat) : List (Option Nat) :=
  if s0.headF.getD i none = some j0 then hf.set i (nodeFwd s0 j0 i) else hf

theorem headRewire_comm {α : Type} (s0 : SkipList α) (j0 : Nat) :
    ∀ (c : List (Option Nat)) (a b : Nat),
      headRewire s0 j0 (headRewire s0 j0 c a) b
        = headRewire s0 j0 (headRewire s0 j0 c b) a := by
  intro c a b
  by_cases hab : a = b
  · rw [hab]
  · unfold headRewire
    by_cases ga : s0.headF.getD a none = some j0
    · by_cases gb : s0.headF.getD b none = some j0
      · rw [if_pos gb, if_pos ga, if_pos ga, if_pos gb]
        exact List.set_comm _ _ _ hab
      · rw [if_neg gb, if_neg gb]
    · by_cases gb : s0.headF.getD b none = some j0
      · rw [if_neg ga, if_neg ga]
      · rw [if_neg ga, if_neg gb, if_neg ga]

theorem unlinkLevels_head_eq {α : Type} (updAt : Nat → Pos) (j0 : Nat)
    (s0 : SkipList α) (hupd : ∀ i, updAt i = Pos.head) :
    ∀ (is : List Nat), is.Nodup → ∀ (s : SkipList α), s.arena = s0.arena →
      (∀ k ∈ is, s.headF.getD k none = s0.headF.getD k none) →
      unlinkLevels updAt j0 is s
        = { s with headF := is.foldl (headRewire s0 j0) s.headF } := by
  intro is
  induction is with
  | nil => intro _ s _ _; rfl
  | cons i is ih =>
    intro hnd s harena hagree
    have hstep : unlinkStep updAt j0 i s
        = { s with headF := headRewire s0 j0 s.headF i } := by
      unfold unlinkStep headRewire
      rw [hupd i]
      show (if fwd s Pos.head i = some j0 then setFwd s Pos.head i (nodeFwd s j0 i)
        else s) = _
      have hfh : fwd s Pos.head i = s.headF.getD i none := rfl
      rw [hfh, hagree i (List.mem_cons_self _ _),
        nodeFwd_congr_arena harena j0 i]
      by_cases hg : s0.headF.getD i none = some j0
      · rw [if_pos hg, if_pos hg]
        rfl
      · rw [if_neg hg, if_neg hg]
    have hagree2 : ∀ k ∈ is, ({ s with headF := headRewire s0 j0 s.headF i }
        : SkipList α).headF.getD k none = s0.headF.getD k none := by
      intro k hk
      have hki : k ≠ i := fun hcon => (List.nodup_cons.mp hnd).1 (hcon ▸ hk)
      show (headRewire s0 j0 s.headF i).getD k none = _
      unfold headRewire
      by_cases hg : s0.headF.getD i none = some j0
      · rw [if_pos hg, getD_set_opt, if_neg (fun hcon => hki hcon.1)]
        exact hagree k (List.mem_cons_of_mem _ hk)
      · rw [if_neg hg]
        exact hagree k (List.mem_cons_of_mem _ hk)
    simp only [unlinkLevels]
    rw [hstep]
    rw [ih hnd.tail { s with headF := headRewire s0 j0 s.headF i } harena hagree2]
    simp only [List.foldl_cons]

theorem popLoop_head_eq {α : Type} (j0 : Nat) (s0 : SkipList α) :
    ∀ (is : List Nat), is.Nodup → ∀ (s : SkipList α), s.arena = s0.arena →
      (∀ k ∈ is, s.headF.getD k none = s0.headF.getD k none) →
      popLoop j0 is s = { s with headF := is.foldl (headRewire s0 j0) s.headF } := by
  intro is
  induction is with
  | nil => intro _ s _ _; rfl
  | cons i is ih =>
    intro hnd s harena hagree
    have hstep : (if fwd s Pos.head i = some j0
        then setFwd s Pos.head i (nodeFwd s j0 i) else s)
        = { s with headF := headRewire s0 j0 s.headF i } := by
      unfold headRewire
      have hfh : fwd s Pos.head i = s.headF.getD i none := rfl
      rw [hfh, hagree i (List.mem_cons_self _ _),
        nodeFwd_congr_arena harena j0 i]
      by_cases hg : s0.headF.getD i none = some j0
      · rw [if_pos hg, if_pos hg]
        rfl
      · rw [if_neg hg, if_neg hg]
    have hagree2 : ∀ k ∈ is, ({ s with headF := headRewire s0 j0 s.headF i }
        : SkipList α).headF.getD k none = s0.headF.getD k none := by
      intro k hk
      have hki : k ≠ i := fun hcon => (List.nodup_cons.mp hnd).1 (hcon ▸ hk)
      show (headRewire s0 j0 s.headF i).getD k none = _
      unfold headRewire
      by_cases hg : s0.headF.getD i none = some j0
      · rw [if_pos hg, getD_set_opt, if_neg (fun hcon => hki hcon.1)]
        exact hagree k (List.mem_cons_of_mem _ hk)
      · rw [if_neg hg]
        exact hagree k (List.mem_cons_of_mem _ hk)
    show popLoop j0 is _ = _
    rw [hstep]
    rw [ih hnd.tail { s with headF := headRewire s0 j0 s.headF i } harena hagree2]
    simp only [List.foldl_cons]


/-- When `x` is the item of the first node, no stored item is below it,
so every update target of a descent to `x` is the head. -/
theorem min_updTarget_head {α : Type} [Inhabited α] {lt : α → α → Bool}
    (hl : LawfulLess lt) {sl : SkipList α} (hw : Wf lt sl) {j0 : Nat}
    (hall : ∀ j ∈ chainL sl 0, lt (itemAt sl j) (itemAt sl j0) = false)
    (i : Nat) : updTarget lt sl (itemAt sl j0) i = Pos.head := by
  unfold updTarget
  rw [takeWhile_all_false _ _ (fun j hj => hall j (wf_mem_chain0 hw hj))]
  rfl

/-- `PopFirst` on a non-empty well-formed list computes exactly
`Delete` of the first item: same returned item, same final state. -/
theorem PopFirst_eq_Delete {α : Type} [Inhabited α] {lt : α → α → Bool}
    (hl : LawfulLess lt) {sl : SkipList α} (hw : Wf lt sl)
    (hne : sl.length ≠ 0) :
    ∃ x, First sl = some x ∧ (PopFirst sl).1 = some x ∧ x ∈ contents sl
      ∧ (∀ y ∈ contents sl, lt y x = false)
      ∧ PopFirst sl = Delete lt sl x := by
  have hcne : chainL sl 0 ≠ [] := fun hcnil => hne (by rw [hw.lenEq, hcnil]; rfl)
  rcases hc : chainL sl 0 with _ | ⟨j0, tl⟩
  · exact absurd hc hcne
  have hall : ∀ j ∈ chainL sl 0, lt (itemAt sl j) (itemAt sl j0) = false := by
    intro j hj
    rw [hc] at hj
    rcases List.mem_cons.mp hj with rfl | hjtl
    · exact hl.irrefl _
    · have hpw := hw.sorted
      rw [hc] at hpw
      exact List.rel_of_pairwise_cons hpw hjtl
  have hdw : (chainL sl 0).dropWhile (fun j => lt (itemAt sl j) (itemAt sl j0))
      = j0 :: tl := by
    rw [dropWhile_all_false _ _ hall, hc]
  have heq : equal lt (itemAt sl j0) (itemAt sl j0) = true :=
    (equal_eq_true_iff lt _ _).mpr ⟨hl.irrefl _, hl.irrefl _⟩
  have hDel := Delete_found_eq hl hw (itemAt sl j0) hdw heq
  have hf0 : fwd sl Pos.head 0 = some j0 := by
    have h := isChainFrom_head? (hw.chains 0)
    rw [hc] at h
    exact h
  have hPop : PopFirst sl = (some (itemAt sl j0),
      { popLoop j0 (List.range sl.level).reverse sl with
        level := shrinkLevel (popLoop j0 (List.range sl.level).reverse sl).headF
          (popLoop j0 (List.range sl.level).reverse sl).level,
        length := (popLoop j0 (List.range sl.level).reverse sl).length - 1 }) := by
    unfold PopFirst
    rw [if_neg hne, hf0]
  have hkey : delState lt sl (itemAt sl j0) j0
      = popLoop j0 (List.range sl.level).reverse sl := by
    have hupd : ∀ i, updFn (descend lt sl (itemAt sl j0) sl.level Pos.head).2 i
        = Pos.head := by
      intro i
      rw [updFn_descend hl hw _ i]
      exact min_updTarget_head hl hw hall i
    have h1 := unlinkLevels_head_eq
      (updFn (descend lt sl (itemAt sl j0) sl.level Pos.head).2) j0 sl hupd
      (List.range sl.level) (List.nodup_range _) sl rfl (fun _ _ => rfl)
    have h2 := popLoop_head_eq j0 sl (List.range sl.level).reverse
      (by simpa using List.nodup_range sl.level) sl rfl (fun _ _ => rfl)
    unfold delState
    rw [h1, h2]
    have hperm : (List.range sl.level).Perm (List.range sl.level).reverse :=
      (List.reverse_perm _).symm
    rw [foldl_perm_eq (headRewire sl j0) (headRewire_comm sl j0) hperm sl.headF]
  refine ⟨itemAt sl j0, ?_, ?_, ?_, ?_, ?_⟩
  · unfold First
    rw [if_neg hne, hf0]
    rfl
  · rw [hPop]
  · exact List.mem_map.mpr ⟨j0, by rw [hc]; exact List.mem_cons_self _ _, rfl⟩
  · intro y hy
    obtain ⟨j, hj, rfl⟩ := List.mem_map.mp hy
    exact hall j hj
  · rw [hPop, hDel, hkey]


/-! ### The public `Put` wrapper -/

theorem randLevel_bounds (m : Nat) (hm : 1 ≤ m) (flips : List Bool) :
    1 ≤ randLevel m flips ∧ randLevel m flips ≤ m := by
  have hd : randLevel m flips
      = if 1 + (flips.takeWhile id).length < m
        then 1 + (flips.takeWhile id).length else m := rfl
  rw [hd]
  by_cases h : 1 + (flips.takeWhile id).length < m
  · rw [if_pos h]
    omega
  · rw [if_neg h]
    omega

theorem Put_eq_putWithLevel {α : Type} [Inhabited α] (lt : α → α → Bool)
    (sl : SkipList α) (x : α) (flips : List Bool) :
    Put lt sl x flips = putWithLevel lt sl x (randLevel sl.maxLevel flips) := rfl

/-- `Put` preserves well-formedness, inserts the item at its sorted
position, and bumps the length; the max level never changes. -/
theorem Put_spec {α : Type} [Inhabited α] {lt : α → α → Bool}
    (hl : LawfulLess lt) {sl : SkipList α} (hw : Wf lt sl) (x : α)
    (flips : List Bool) :
    Wf lt (Put lt sl x flips)
    ∧ contents (Put lt sl x flips)
        = (contents sl).takeWhile (fun y => lt y x)
          ++ x :: (contents sl).dropWhile (fun y => lt y x)
    ∧ (Put lt sl x flips).length = sl.length + 1
    ∧ (Put lt sl x flips).maxLevel = sl.maxLevel := by
  have hm1 : 1 ≤ sl.maxLevel := le_trans (by omega) hw.maxOk
  obtain ⟨hb1, hb2⟩ := randLevel_bounds sl.maxLevel hm1 flips
  obtain ⟨hwf, hchain, hold, hnew, hlen, hmax, harena⟩ :=
    putWithLevel_spec hl hw x hb1 hb2
  rw [Put_eq_putWithLevel]
  refine ⟨hwf, ?_, hlen, hmax⟩
  show itemsAt _ (chainL (putWithLevel lt sl x (randLevel sl.maxLevel flips)) 0) = _
  rw [hchain]
  unfold itemsAt
  rw [List.map_append, List.map_cons]
  have hcongT : ((chainL sl 0).takeWhile (fun j => lt (itemAt sl j) x)).map
        (itemAt (putWithLevel lt sl x (randLevel sl.maxLevel flips)))
      = ((chainL sl 0).takeWhile (fun j => lt (itemAt sl j) x)).map (itemAt sl) :=
    List.map_congr_left (fun j hj =>
      hold j (hw.valid j ((List.takeWhile_sublist _).mem hj)))
  have hcongD : ((chainL sl 0).dropWhile (fun j => lt (itemAt sl j) x)).map
        (itemAt (putWithLevel lt sl x (randLevel sl.maxLevel flips)))
      = ((chainL sl 0).dropWhile (fun j => lt (itemAt sl j) x)).map (itemAt sl) :=
    List.map_congr_left (fun j hj =>
      hold j (hw.valid j ((List.dropWhile_sublist _).mem hj)))
  rw [hcongT, hcongD, hnew]
  show _ = ((chainL sl 0).map (itemAt sl)).takeWhile (fun y => lt y x)
    ++ x :: ((chainL sl 0).map (itemAt sl)).dropWhile (fun y => lt y x)
  rw [List.takeWhile_map, List.dropWhile_map]
  rfl

theorem Put_contents_perm {α : Type} [Inhabited α] {lt : α → α → Bool}
    (hl : LawfulLess lt) {sl : SkipList α} (hw : Wf lt sl) (x : α)
    (flips : List Bool) :
    (contents (Put lt sl x flips)).Perm (x :: contents sl) := by
  rw [(Put_spec hl hw x flips).2.1]
  refine List.Perm.trans List.perm_middle ?_
  rw [List.takeWhile_append_dropWhile]

/-! ### The fresh skiplist -/

theorem fwd_mkSkipList {α : Type} (m i : Nat) :
    fwd (mkSkipList (α := α) m) Pos.head i = none := by
  show (List.replicate m (none : Option Nat)).getD i none = none
  exact getD_replicate_none m i

theorem chainL_mkSkipList {α : Type} (m i : Nat) :
    chainL (mkSkipList (α := α) m) i = [] := by
  show chainFrom (mkSkipList (α := α) m) i
    ((mkSkipList (α := α) m).arena.length + 1) Pos.head = []
  have ha : (mkSkipList (α := α) m).arena.length + 1 = 0 + 1 := rfl
  rw [ha]
  show (match fwd (mkSkipList (α := α) m) Pos.head i with
    | none => []
    | some j => j :: chainFrom (mkSkipList (α := α) m) i 0 (Pos.node j)) = []
  rw [fwd_mkSkipList]

theorem contents_mkSkipList {α : Type} [Inhabited α] (m : Nat) :
    contents (mkSkipList (α := α) m) = [] := by
  show itemsAt _ (chainL (mkSkipList (α := α) m) 0) = []
  rw [chainL_mkSkipList]
  rfl

/-- A fresh skiplist with `2 ≤ maxLevel` is well-formed. -/
theorem wf_mkSkipList {α : Type} [Inhabited α] (lt : α → α → Bool) {m : Nat}
    (hm : 2 ≤ m) : Wf lt (mkSkipList (α := α) m) := by
  refine ⟨?_, hm, ?_, ?_, ?_, ?_, ?_, ?_, ?_, ?_⟩
  · exact List.length_replicate m none
  · exact Nat.zero_le m
  · intro i _
    exact fwd_mkSkipList m i
  · intro h
    have h0 : (mkSkipList (α := α) m).level = 0 := rfl
    rw [h0] at h
    exact absurd h (by decide)
  · intro i
    rw [chainL_mkSkipList]
    exact IsChainFrom.nil _ (fwd_mkSkipList m i)
  · intro j hj
    rw [chainL_mkSkipList] at hj
    cases hj
  · intro i
    rw [chainL_mkSkipList, chainL_mkSkipList]
    rfl
  · rw [chainL_mkSkipList]
    exact List.Pairwise.nil
  · rw [chainL_mkSkipList]
    rfl

/-! ### Sequences of `Put` calls -/

/-- Run a sequence of `Put` calls (item and random draws per call). -/
def putAll {α : Type} [Inhabited α] (lt : α → α → Bool)
    (xs : List (α × List Bool)) (sl : SkipList α) : SkipList α :=
  xs.foldl (fun s p => Put lt s p.1 p.2) sl

/-- A fresh skiplist of max level `m` after a sequence of `Put` calls. -/
def putSeq {α : Type} [Inhabited α] (lt : α → α → Bool) (m : Nat)
    (xs : List (α × List Bool)) : SkipList α :=
  putAll lt xs (mkSkipList m)

theorem putAll_spec {α : Type} [Inhabited α] {lt : α → α → Bool}
    (hl : LawfulLess lt) :
    ∀ (xs : List (α × List Bool)) {sl : SkipList α}, Wf lt sl →
      Wf lt (putAll lt xs sl)
      ∧ (contents (putAll lt xs sl)).Perm (xs.map Prod.fst ++ contents sl)
      ∧ (putAll lt xs sl).length = sl.length + xs.length := by
  intro xs
  induction xs with
  | nil =>
    intro sl hw
    refine ⟨hw, by simp [putAll], by simp [putAll]⟩
  | cons p ps ih =>
    intro sl hw
    have hw1 := (Put_spec hl hw p.1 p.2).1
    have hlen1 := (Put_spec hl hw p.1 p.2).2.2.1
    have hperm1 := Put_contents_perm hl hw p.1 p.2
    have hstep : putAll lt (p :: ps) sl = putAll lt ps (Put lt sl p.1 p.2) := rfl
    obtain ⟨hwf, hperm, hlen⟩ := ih hw1
    rw [hstep]
    refine ⟨hwf, ?_, ?_⟩
    · have h3 : ((p :: ps).map Prod.fst ++ contents sl)
          = p.1 :: (ps.map Prod.fst ++ contents sl) := by simp
      rw [h3]
      exact (hperm.trans (List.Perm.append_left _ hperm1)).trans List.perm_middle
    · rw [hlen, hlen1, List.length_cons]
      push_cast
      omega

theorem putSeq_spec {α : Type} [Inhabited α] {lt : α → α → Bool}
    (hl : LawfulLess lt) {m : Nat} (hm : 2 ≤ m) (xs : List (α × List Bool)) :
    Wf lt (putSeq lt m xs)
    ∧ (contents (putSeq lt m xs)).Perm (xs.map Prod.fst)
    ∧ (putSeq lt m xs).length = (xs.length : Int) := by
  obtain ⟨hwf, hperm, hlen⟩ := putAll_spec hl xs (wf_mkSkipList lt hm)
  have hsq : putSeq lt m xs = putAll lt xs (mkSkipList m) := rfl
  rw [hsq]
  refine ⟨hwf, ?_, ?_⟩
  · rw [contents_mkSkipList] at hperm
    simpa using hperm
  · have h0 : (mkSkipList (α := α) m).length = 0 := rfl
    rw [h0] at hlen
    simpa using hlen


/-! ### Iteration -/

/-- Running the `Next`/`Item` loop from a position whose level-0 chain
is `c` yields exactly the items of `c` and then exhausts cleanly. -/
theorem iterate_chain {α : Type} [Inhabited α] {sl : SkipList α} :
    ∀ (c : List Nat) (p : Pos), IsChainFrom sl 0 p c →
      ∀ fuel, c.length < fuel →
        iterateAux sl fuel ⟨some p⟩ = (itemsAt sl c, true) := by
  intro c
  induction c with
  | nil =>
    intro p hch fuel hf
    have hn : fwd sl p 0 = none := by
      cases hch with
      | nil _ h => exact h
    cases fuel with
    | zero => omega
    | succ f =>
      have h1 : IterNext sl ⟨some p⟩ = some (false, ⟨none⟩) := by
        show (match fwd sl p 0 with
          | none => some (false, (⟨none⟩ : Iterator))
          | some j => some (true, (⟨some (Pos.node j)⟩ : Iterator)))
          = some (false, (⟨none⟩ : Iterator))
        rw [hn]
      show iterateAux sl (f + 1) ⟨some p⟩ = ([], true)
      simp only [iterateAux]
      rw [h1]
  | cons j c' ihc =>
    intro p hch fuel hf
    have hf0 : fwd sl p 0 = some j := by
      cases hch with
      | cons h _ => exact h
    have htail : IsChainFrom sl 0 (Pos.node j) c' := by
      cases hch with
      | cons _ h => exact h
    cases fuel with
    | zero => omega
    | succ f =>
      have h1 : IterNext sl ⟨some p⟩ = some (true, ⟨some (Pos.node j)⟩) := by
        show (match fwd sl p 0 with
          | none => some (false, (⟨none⟩ : Iterator))
          | some j => some (true, (⟨some (Pos.node j)⟩ : Iterator)))
          = some (true, (⟨some (Pos.node j)⟩ : Iterator))
        rw [hf0]
      show iterateAux sl (f + 1) ⟨some p⟩ = (itemAt sl j :: itemsAt sl c', true)
      simp only [iterateAux]
      rw [h1]
      show (IterItem sl ⟨some (Pos.node j)⟩
          :: (iterateAux sl f ⟨some (Pos.node j)⟩).1,
        (iterateAux sl f ⟨some (Pos.node j)⟩).2)
        = (itemAt sl j :: itemsAt sl c', true)
      rw [ihc (Pos.node j) htail f (by simpa using hf)]
      rfl

/-- A no-bound iterator yields the whole (sorted) contents. -/
theorem iterItems_none {α : Type} [Inhabited α] {lt : α → α → Bool}
    {sl : SkipList α} (hw : Wf lt sl) :
    iterItems lt sl none = (contents sl, true) := by
  unfold iterItems NewIterator
  exact iterate_chain (chainL sl 0) Pos.head (hw.chains 0) _
    (Nat.lt_succ_of_le (wf_chain0_len_le hw))

/-- The level-`i` chain from an update target is the dropped suffix. -/
theorem isChainFrom_updTarget {α : Type} [Inhabited α] {lt : α → α → Bool}
    {sl : SkipList α} (hw : Wf lt sl) (x : α) (i : Nat) :
    IsChainFrom sl i (updTarget lt sl x i)
      ((chainL sl i).dropWhile (fun j => lt (itemAt sl j) x)) := by
  have hchain : IsChainFrom sl i Pos.head
      ((chainL sl i).takeWhile (fun j => lt (itemAt sl j) x)
        ++ (chainL sl i).dropWhile (fun j => lt (itemAt sl j) x)) := by
    rw [List.takeWhile_append_dropWhile]
    exact hw.chains i
  exact isChainFrom_drop hchain

/-- An iterator seeded at `x` yields exactly the stored items not
below `x`, in order. -/
theorem iterItems_some {α : Type} [Inhabited α] {lt : α → α → Bool}
    (hl : LawfulLess lt) {sl : SkipList α} (hw : Wf lt sl) (x : α) :
    iterItems lt sl (some x)
      = ((contents sl).dropWhile (fun y => lt y x), true) := by
  unfold iterItems NewIterator
  show iterateAux sl (sl.arena.length + 1)
    ⟨some (descend lt sl x sl.level Pos.head).1⟩ = _
  rw [descend_final hl hw x]
  have hlen : ((chainL sl 0).dropWhile (fun j => lt (itemAt sl j) x)).length
      < sl.arena.length + 1 :=
    Nat.lt_succ_of_le (le_trans (List.Sublist.length_le (List.dropWhile_sublist _))
      (wf_chain0_len_le hw))
  rw [iterate_chain _ _ (isChainFrom_updTarget hw x 0) _ hlen]
  show (((chainL sl 0).dropWhile (fun j => lt (itemAt sl j) x)).map (itemAt sl), true)
    = (((chainL sl 0).map (itemAt sl)).dropWhile (fun y => lt y x), true)
  rw [List.dropWhile_map]
  rfl

/-- The stored items are pairwise non-decreasing. -/
theorem contents_sorted {α : Type} [Inhabited α] {lt : α → α → Bool}
    {sl : SkipList α} (hw : Wf lt sl) :
    List.Pairwise (fun a b => lt b a = false) (contents sl) := by
  show List.Pairwise (fun a b => lt b a = false) ((chainL sl 0).map (itemAt sl))
  exact List.pairwise_map.mpr hw.sorted

/-! ### `PopFirst`, `First`, `Clear` on the public interface -/

theorem PopFirst_empty {α : Type} [Inhabited α] {sl : SkipList α}
    (h : sl.length = 0) : PopFirst sl = (none, sl) := by
  unfold PopFirst
  rw [if_pos h]

theorem First_empty {α : Type} [Inhabited α] {sl : SkipList α}
    (h : sl.length = 0) : First sl = none := by
  unfold First
  rw [if_pos h]

/-- `PopFirst` on a non-empty well-formed list: returns the minimum,
preserves well-formedness, drops the head of the contents, and
decrements the length. -/
theorem PopFirst_found_spec {α : Type} [Inhabited α] {lt : α → α → Bool}
    (hl : LawfulLess lt) {sl : SkipList α} (hw : Wf lt sl)
    (hne : sl.length ≠ 0) :
    ∃ x, (PopFirst sl).1 = some x ∧ First sl = some x
      ∧ Wf lt (PopFirst sl).2
      ∧ (PopFirst sl).2.length = sl.length - 1
      ∧ (PopFirst sl).2.maxLevel = sl.maxLevel
      ∧ contents (PopFirst sl).2 = (contents sl).tail := by
  obtain ⟨x, hfirst, hpop1, hmem, hmin, heq⟩ := PopFirst_eq_Delete hl hw hne
  have hpres : ∃ y ∈ contents sl, equal lt y x = true :=
    ⟨x, hmem, (equal_eq_true_iff lt x x).mpr ⟨hl.irrefl x, hl.irrefl x⟩⟩
  obtain ⟨z, _, _, hwf, hlen, hmax, hcont⟩ := Delete_found_spec hl hw x hpres
  have hminb : ∀ y ∈ contents sl, (fun y => lt y x) y = false := hmin
  refine ⟨x, hpop1, hfirst, ?_, ?_, ?_, ?_⟩
  · rw [heq]
    exact hwf
  · rw [heq]
    exact hlen
  · rw [heq]
    exact hmax
  · rw [heq, hcont, takeWhile_all_false _ _ hminb, dropWhile_all_false _ _ hminb]
    rfl

/-- Each round of `Clear` preserves well-formedness; with enough fuel
the result is empty. -/
theorem clearFuel_wf {α : Type} [Inhabited α] {lt : α → α → Bool}
    (hl : LawfulLess lt) :
    ∀ (fuel : Nat) {sl : SkipList α}, Wf lt sl → sl.length.toNat < fuel →
      Wf lt (clearFuel sl fuel) ∧ (clearFuel sl fuel).length = 0 := by
  intro fuel
  induction fuel with
  | zero =>
    intro sl _ h
    omega
  | succ f ih =>
    intro sl hw h
    by_cases hz : sl.length = 0
    · have hstep : clearFuel sl (f + 1) = sl := by
        simp only [clearFuel]
        rw [PopFirst_empty hz]
      rw [hstep]
      exact ⟨hw, hz⟩
    · obtain ⟨x, hpop1, _, hwf, hlen, _, _⟩ := PopFirst_found_spec hl hw hz
      rcases hP : PopFirst sl with ⟨o, s⟩
      rw [hP] at hpop1 hwf hlen
      have ho : o = some x := hpop1
      have hstep : clearFuel sl (f + 1) = clearFuel s f := by
        simp only [clearFuel]
        rw [hP, ho]
      have hge : (0 : Int) ≤ sl.length := by
        rw [hw.lenEq]
        exact Int.ofNat_nonneg _
      have hsf : s.length.toNat < f := by
        have hlen' : s.length = sl.length - 1 := hlen
        omega
      rw [hstep]
      exact ih hwf hsf

/-- `Clear` preserves well-formedness and empties the list. -/
theorem Clear_wf {α : Type} [Inhabited α] {lt : α → α → Bool}
    (hl : LawfulLess lt) {sl : SkipList α} (hw : Wf lt sl) :
    Wf lt (Clear sl) ∧ (Clear sl).length = 0 := by
  unfold Clear
  exact clearFuel_wf hl _ hw (by omega)

/-- Every state reachable through the public API is well-formed. -/
theorem reachable_wf {α : Type} [Inhabited α] {lt : α → α → Bool}
    (hl : LawfulLess lt) {sl : SkipList α} (hr : Reachable lt sl) :
    Wf lt sl := by
  induction hr with
  | @new m seed sl0 h =>
    unfold NewWithRandSeed at h
    by_cases hm : m < 2
    · rw [if_pos hm] at h
      cases h
    · rw [if_neg hm] at h
      cases h
      exact wf_mkSkipList lt (by omega)
  | put x flips _ ih => exact (Put_spec hl ih x flips).1
  | @del s x hr ih =>
    by_cases hpres : ∃ y ∈ contents s, equal lt y x = true
    · obtain ⟨z, _, _, hwf, _⟩ := Delete_found_spec hl ih x hpres
      exact hwf
    · have habs : ∀ y ∈ contents s, equal lt y x = false := by
        intro y hy
        cases hv : equal lt y x with
        | false => rfl
        | true => exact absurd ⟨y, hy, hv⟩ hpres
      rw [Delete_absent hl ih x habs]
      exact ih
  | @pop s hr ih =>
    by_cases hz : s.length = 0
    · rw [PopFirst_empty hz]
      exact ih
    · obtain ⟨x, _, _, hwf, _⟩ := PopFirst_found_spec hl ih hz
      exact hwf
  | clear _ ih => exact (Clear_wf hl ih).1


/-! ### A concrete strict order for instances -/

/-- The natural-number order as a `Less` method (`Int` of the source,
instantiated at naturals). -/
def natLess (a b : Nat) : Bool := decide (a < b)

theorem lawful_natLess : LawfulLess natLess := by
  refine ⟨?_, ?_, ?_⟩
  · intro a
    simp [natLess]
  · intro a b c hab hbc
    simp only [natLess, decide_eq_true_eq] at hab hbc ⊢
    omega
  · intro a b c hab hbc
    simp only [natLess, decide_eq_false_iff_not] at hab hbc ⊢
    omega

theorem dropWhile_range (N k : Nat) (hk : k ≤ N) :
    (List.range N).dropWhile (fun y => natLess y k) = (List.range N).drop k := by
  have hN : N = k + (N - k) := by omega
  have hsplit : List.range N
      = List.range k ++ (List.range (N - k)).map (fun i => k + i) := by
    conv_lhs => rw [hN]
    exact List.range_add k (N - k)
  have h1 : ∀ e ∈ List.range k, (fun y => natLess y k) e = true := by
    intro e he
    simp only [natLess, decide_eq_true_eq]
    exact List.mem_range.mp he
  have h2 : ∀ e ∈ (List.range (N - k)).map (fun i => k + i),
      (fun y => natLess y k) e = false := by
    intro e he
    obtain ⟨i, _, rfl⟩ := List.mem_map.mp he
    simp only [natLess, decide_eq_false_iff_not]
    omega
  have h3 : (List.range k ++ (List.range (N - k)).map (fun i => k + i)).drop k
      = (List.range (N - k)).map (fun i => k + i) := by
    have h4 := List.drop_left (List.range k)
      ((List.range (N - k)).map (fun i => k + i))
    rwa [List.length_range] at h4
  rw [hsplit, (takeWhile_split _ _ _ h1 h2).2, h3]

theorem contents_eq_range {sl : SkipList Nat} (hw : Wf natLess sl) {N : Nat}
    (hperm : (contents sl).Perm (List.range N)) :
    contents sl = List.range N := by
  refine List.eq_of_perm_of_sorted (r := fun a b : Nat => a ≤ b) hperm ?_ ?_
  · refine List.Pairwise.imp ?_ (contents_sorted hw)
    intro a b h
    simp only [natLess, decide_eq_false_iff_not] at h
    omega
  · exact List.pairwise_le_range N

/-! ### The claims -/

/-- C1: for every sequence of `Put` calls on a freshly constructed
skiplist, iterating with a no-bound iterator yields every inserted
item — a permutation of the inserted list — in non-decreasing order
under the caller's strict less-than, and then exhausts cleanly. -/
theorem C1_iteration_yields_all_sorted {α : Type} [Inhabited α]
    {lt : α → α → Bool} (hl : LawfulLess lt) {m : Nat} (hm : 2 ≤ m)
    (xs : List (α × List Bool)) :
    ∃ out, iterItems lt (putSeq lt m xs) none = (out, true)
      ∧ out.Perm (xs.map Prod.fst)
      ∧ List.Pairwise (fun a b => lt b a = false) out := by
  obtain ⟨hwf, hperm, _⟩ := putSeq_spec hl hm xs
  exact ⟨contents (putSeq lt m xs), iterItems_none hwf, hperm,
    contents_sorted hwf⟩

theorem C1_witness :
    LawfulLess natLess ∧ 2 ≤ 2
    ∧ ∃ out,
        iterItems natLess (putSeq natLess 2 [(4, [true]), (1, []), (3, [])]) none
          = (out, true)
        ∧ out.Perm ([(4, [true]), (1, []), (3, [])].map Prod.fst)
        ∧ List.Pairwise (fun a b => natLess b a = false) out :=
  ⟨lawful_natLess, by decide,
    C1_iteration_yields_all_sorted lawful_natLess (by decide)
      [(4, [true]), (1, []), (3, [])]⟩

/-- C2: an item inserted by `Put` is present — some stored item
compares equal to it — and whenever a stored item compares equal to
the probe (the item has not been deleted), `Get` returns a stored item
comparing equal, where equality is mutual non-less-than. -/
theorem C2_put_get_roundtrip {α : Type} [Inhabited α] {lt : α → α → Bool}
    (hl : LawfulLess lt) {sl : SkipList α} (hw : Wf lt sl) (x : α) :
    (∀ flips, ∃ y ∈ contents (Put lt sl x flips), equal lt y x = true)
    ∧ ((∃ y ∈ contents sl, equal lt y x = true) →
        ∃ z, Get lt sl x = some z ∧ equal lt z x = true) := by
  constructor
  · intro flips
    refine ⟨x, ?_, (equal_eq_true_iff lt x x).mpr ⟨hl.irrefl x, hl.irrefl x⟩⟩
    rw [(Put_spec hl hw x flips).2.1]
    exact List.mem_append.mpr (Or.inr (List.mem_cons_self _ _))
  · exact Get_found hl hw x

theorem C2_witness :
    LawfulLess natLess ∧ Wf natLess (putSeq natLess 2 [(7, [])])
    ∧ ((∀ flips, ∃ y ∈ contents (Put natLess (putSeq natLess 2 [(7, [])]) 7 flips),
          equal natLess y 7 = true)
      ∧ ((∃ y ∈ contents (putSeq natLess 2 [(7, [])]), equal natLess y 7 = true) →
          ∃ z, Get natLess (putSeq natLess 2 [(7, [])]) 7 = some z
            ∧ equal natLess z 7 = true)) :=
  ⟨lawful_natLess, (putSeq_spec lawful_natLess (by decide) [(7, [])]).1,
    C2_put_get_roundtrip lawful_natLess
      (putSeq_spec lawful_natLess (by decide) [(7, [])]).1 7⟩

/-- C3: every `Put` increments the length by exactly one (so `N` puts
on a fresh list give length `N`); a successful `Delete` or `PopFirst`
decrements it by exactly one; a `Delete` of an absent item or a
`PopFirst` on an empty list leaves the state unchanged. -/
theorem C3_length_accounting {α : Type} [Inhabited α] {lt : α → α → Bool}
    (hl : LawfulLess lt) {sl : SkipList α} (hw : Wf lt sl) :
    (∀ x flips, (Put lt sl x flips).length = sl.length + 1)
    ∧ (∀ m (xs : List (α × List Bool)), 2 ≤ m →
        (putSeq lt m xs).length = (xs.length : Int))
    ∧ (∀ x, (∃ y ∈ contents sl, equal lt y x = true) →
        (Delete lt sl x).2.length = sl.length - 1)
    ∧ (sl.length ≠ 0 → (PopFirst sl).2.length = sl.length - 1)
    ∧ (∀ x, (∀ y ∈ contents sl, equal lt y x = false) → (Delete lt sl x).2 = sl)
    ∧ (sl.length = 0 → (PopFirst sl).2 = sl) := by
  refine ⟨?_, ?_, ?_, ?_, ?_, ?_⟩
  · intro x flips
    exact (Put_spec hl hw x flips).2.2.1
  · intro m xs hm
    exact (putSeq_spec hl hm xs).2.2
  · intro x hpres
    obtain ⟨z, _, _, _, hlen, _, _⟩ := Delete_found_spec hl hw x hpres
    exact hlen
  · intro hne
    obtain ⟨x, _, _, _, hlen, _, _⟩ := PopFirst_found_spec hl hw hne
    exact hlen
  · intro x habs
    rw [Delete_absent hl hw x habs]
  · intro hz
    rw [PopFirst_empty hz]

theorem C3_witness :
    LawfulLess natLess ∧ Wf natLess (putSeq natLess 2 [(1, [])])
    ∧ ((∀ x flips, (Put natLess (putSeq natLess 2 [(1, [])]) x flips).length
          = (putSeq natLess 2 [(1, [])]).length + 1)
      ∧ (∀ m (xs : List (Nat × List Bool)), 2 ≤ m →
          (putSeq natLess m xs).length = (xs.length : Int))
      ∧ (∀ x, (∃ y ∈ contents (putSeq natLess 2 [(1, [])]),
            equal natLess y x = true) →
          (Delete natLess (putSeq natLess 2 [(1, [])]) x).2.length
            = (putSeq natLess 2 [(1, [])]).length - 1)
      ∧ ((putSeq natLess 2 [(1, [])]).length ≠ 0 →
          (PopFirst (putSeq natLess 2 [(1, [])])).2.length
            = (putSeq natLess 2 [(1, [])]).length - 1)
      ∧ (∀ x, (∀ y ∈ contents (putSeq natLess 2 [(1, [])]),
            equal natLess y x = false) →
          (Delete natLess (putSeq natLess 2 [(1, [])]) x).2
            = putSeq natLess 2 [(1, [])])
      ∧ ((putSeq natLess 2 [(1, [])]).length = 0 →
          (PopFirst (putSeq natLess 2 [(1, [])])).2 = putSeq natLess 2 [(1, [])])) :=
  ⟨lawful_natLess, (putSeq_spec lawful_natLess (by decide) [(1, [])]).1,
    C3_length_accounting lawful_natLess
      (putSeq_spec lawful_natLess (by decide) [(1, [])]).1⟩

/-- C4 (counterexample): a freshly constructed skiplist is a reachable
state whose level is `0`, refuting the claim that `1 ≤ level` holds at
every reachable state including immediately after construction. -/
theorem C4_level_zero_counterexample :
    ∃ sl : SkipList Nat, Reachable natLess sl ∧ ¬ 1 ≤ sl.level :=
  ⟨mkSkipList 2, @Reachable.new Nat _ natLess 2 0 (mkSkipList 2) rfl, by decide⟩

/-- C4 (amended): at every reachable state the level is at most
`maxLevel`, every head forward link at an index at or above the level
is absent, when the level is at least `2` the link just below it is
present (the level is not shrinkable), and the level is at least `1`
whenever the list is non-empty; only a list that has never held an
item has level `0`. -/
theorem C4_amended_level_invariant {α : Type} [Inhabited α]
    {lt : α → α → Bool} (hl : LawfulLess lt) {sl : SkipList α}
    (hr : Reachable lt sl) :
    sl.level ≤ sl.maxLevel
    ∧ (∀ i, sl.level ≤ i → fwd sl Pos.head i = none)
    ∧ (2 ≤ sl.level → fwd sl Pos.head (sl.level - 1) ≠ none)
    ∧ (sl.length ≠ 0 → 1 ≤ sl.level) := by
  have hw := reachable_wf hl hr
  refine ⟨hw.levelLe, hw.above, hw.minLvl, ?_⟩
  intro hz
  by_contra hlv
  have hc : chainL sl 0 = [] := wf_chain_empty_above hw (by omega)
  have hlen := hw.lenEq
  rw [hc] at hlen
  exact hz (by rw [hlen]; rfl)

theorem C4_amended_witness :
    LawfulLess natLess ∧ Reachable natLess (mkSkipList 2 : SkipList Nat)
    ∧ ((mkSkipList 2 : SkipList Nat).level ≤ (mkSkipList 2 : SkipList Nat).maxLevel
      ∧ (∀ i, (mkSkipList 2 : SkipList Nat).level ≤ i →
          fwd (mkSkipList 2 : SkipList Nat) Pos.head i = none)
      ∧ (2 ≤ (mkSkipList 2 : SkipList Nat).level →
          fwd (mkSkipList 2 : SkipList Nat) Pos.head
            ((mkSkipList 2 : SkipList Nat).level - 1) ≠ none)
      ∧ ((mkSkipList 2 : SkipList Nat).length ≠ 0 →
          1 ≤ (mkSkipList 2 : SkipList Nat).level)) :=
  ⟨lawful_natLess, @Reachable.new Nat _ natLess 2 0 (mkSkipList 2) rfl,
    C4_amended_level_invariant lawful_natLess
      (@Reachable.new Nat _ natLess 2 0 (mkSkipList 2) rfl)⟩

/-- C5: on a skiplist holding exactly the items `0, …, N−1` (in any
insertion order), an iterator seeded with start `k < N` produces
exactly `k, k+1, …, N−1` in ascending order — `N − k` items — and then
reports clean exhaustion. -/
theorem C5_seeded_iteration (N k : Nat) (sl : SkipList Nat)
    (hw : Wf natLess sl) (hperm : (contents sl).Perm (List.range N))
    (hk : k < N) :
    iterItems natLess sl (some k) = ((List.range N).drop k, true)
    ∧ ((List.range N).drop k).length = N - k := by
  have hceq : contents sl = List.range N := contents_eq_range hw hperm
  constructor
  · rw [iterItems_some lawful_natLess hw k, hceq,
      dropWhile_range N k (Nat.le_of_lt hk)]
  · simp

theorem C5_witness :
    Wf natLess (putSeq natLess 2 [(1, []), (0, [])])
    ∧ (contents (putSeq natLess 2 [(1, []), (0, [])])).Perm (List.range 2)
    ∧ 1 < 2
    ∧ (iterItems natLess (putSeq natLess 2 [(1, []), (0, [])]) (some 1)
        = ((List.range 2).drop 1, true)
      ∧ ((List.range 2).drop 1).length = 2 - 1) :=
  ⟨(putSeq_spec lawful_natLess (by decide) [(1, []), (0, [])]).1, by decide,
    by decide,
    C5_seeded_iteration 2 1 (putSeq natLess 2 [(1, []), (0, [])])
      (putSeq_spec lawful_natLess (by decide) [(1, []), (0, [])]).1
      (by decide) (by decide)⟩

/-- C6: on every non-empty skiplist, `PopFirst` returns exactly the
item `First` reports — a minimum of the stored items — and its
resulting state equals the state `Delete` of that item produces; the
whole pair of results coincides, so multiset, length, level and every
chain agree. -/
theorem C6_popfirst_is_delete_min {α : Type} [Inhabited α]
    {lt : α → α → Bool} (hl : LawfulLess lt) {sl : SkipList α}
    (hw : Wf lt sl) (hne : sl.length ≠ 0) :
    ∃ x, First sl = some x ∧ (∀ y ∈ contents sl, lt y x = false)
      ∧ PopFirst sl = Delete lt sl x := by
  obtain ⟨x, h1, _, _, h4, h5⟩ := PopFirst_eq_Delete hl hw hne
  exact ⟨x, h1, h4, h5⟩

theorem C6_witness :
    LawfulLess natLess ∧ Wf natLess (putSeq natLess 2 [(3, []), (5, [])])
    ∧ (putSeq natLess 2 [(3, []), (5, [])]).length ≠ 0
    ∧ ∃ x, First (putSeq natLess 2 [(3, []), (5, [])]) = some x
      ∧ (∀ y ∈ contents (putSeq natLess 2 [(3, []), (5, [])]), natLess y x = false)
      ∧ PopFirst (putSeq natLess 2 [(3, []), (5, [])])
        = Delete natLess (putSeq natLess 2 [(3, []), (5, [])]) x :=
  ⟨lawful_natLess, (putSeq_spec lawful_natLess (by decide) [(3, []), (5, [])]).1,
    by decide,
    C6_popfirst_is_delete_min lawful_natLess
      (putSeq_spec lawful_natLess (by decide) [(3, []), (5, [])]).1 (by decide)⟩

/-- C7: when no stored item compares equal to `x`, `Delete x` returns
the not-found signal and performs no mutation at all — the resulting
state is the original state, so length, level and every forward link
are unchanged. -/
theorem C7_delete_absent_no_mutation {α : Type} [Inhabited α]
    {lt : α → α → Bool} (hl : LawfulLess lt) {sl : SkipList α}
    (hw : Wf lt sl) (x : α)
    (habs : ∀ y ∈ contents sl, equal lt y x = false) :
    Delete lt sl x = (none, sl) :=
  Delete_absent hl hw x habs

theorem C7_witness :
    LawfulLess natLess ∧ Wf natLess (putSeq natLess 2 [(1, [])])
    ∧ (∀ y ∈ contents (putSeq natLess 2 [(1, [])]), equal natLess y 9 = false)
    ∧ Delete natLess (putSeq natLess 2 [(1, [])]) 9
      = (none, putSeq natLess 2 [(1, [])]) :=
  ⟨lawful_natLess, (putSeq_spec lawful_natLess (by decide) [(1, [])]).1,
    by decide,
    C7_delete_absent_no_mutation lawful_natLess
      (putSeq_spec lawful_natLess (by decide) [(1, [])]).1 9 (by decide)⟩

/-- C8: constructing with `maxLevel` below `2` fails fatally (the
panic is modelled as `none`): it never silently succeeds or clamps;
any `maxLevel ≥ 2` yields a new empty instance. -/
theorem C8_construction_guard (α : Type) [Inhabited α] (m : Nat) (seed : Int) :
    (m < 2 → (NewWithRandSeed m seed : Option (SkipList α)) = none)
    ∧ (2 ≤ m → (NewWithRandSeed m seed : Option (SkipList α)) = some (mkSkipList m)
        ∧ (mkSkipList (α := α) m).length = 0
        ∧ contents (mkSkipList (α := α) m) = []) := by
  constructor
  · intro h
    unfold NewWithRandSeed
    rw [if_pos h]
  · intro h
    refine ⟨?_, rfl, contents_mkSkipList m⟩
    unfold NewWithRandSeed
    rw [if_neg (by omega)]

theorem C8_witness :
    (NewWithRandSeed 0 0 : Option (SkipList Nat)) = none
    ∧ (NewWithRandSeed 1 5 : Option (SkipList Nat)) = none
    ∧ (NewWithRandSeed 2 0 : Option (SkipList Nat)) = some (mkSkipList 2) :=
  ⟨(C8_construction_guard Nat 0 0).1 (by decide),
    (C8_construction_guard Nat 1 5).1 (by decide),
    ((C8_construction_guard Nat 2 0).2 (by decide)).1⟩

/-- C9: once `Next` has returned `false` — the cursor stepped past the
last level-0 node and became nil — a further `Next` call dereferences
the nil cursor's forward array and faults (modelled `none`) instead of
returning `false` again: exhaustion is not a repeatable query. -/
theorem C9_next_after_exhaustion_faults {α : Type} (sl : SkipList α)
    (it it' : Iterator) (h : IterNext sl it = some (false, it')) :
    IterNext sl it' = none := by
  rcases hit : it.pos with _ | p
  · have hnone : IterNext sl it = none := by
      unfold IterNext
      rw [hit]
    rw [hnone] at h
    cases h
  · have hexp : IterNext sl it
        = (match fwd sl p 0 with
          | none => some (false, (⟨none⟩ : Iterator))
          | some j => some (true, (⟨some (Pos.node j)⟩ : Iterator))) := by
      unfold IterNext
      rw [hit]
    rw [hexp] at h
    rcases hf : fwd sl p 0 with _ | j
    · rw [hf] at h
      have h2 : (⟨none⟩ : Iterator) = it' := by
        have h1 : ((false, (⟨none⟩ : Iterator)) : Bool × Iterator)
            = (false, it') := Option.some.inj h
        exact congrArg Prod.snd h1
      rw [← h2]
      rfl
    · rw [hf] at h
      have h1 : ((true, (⟨some (Pos.node j)⟩ : Iterator)) : Bool × Iterator)
          = (false, it') := Option.some.inj h
      have h2 : true = false := congrArg Prod.fst h1
      cases h2

theorem C9_witness :
    IterNext (mkSkipList 2 : SkipList Nat) ⟨some Pos.head⟩ = some (false, ⟨none⟩)
    ∧ IterNext (mkSkipList 2 : SkipList Nat) ⟨none⟩ = none :=
  ⟨rfl, C9_next_after_exhaustion_faults (mkSkipList 2) ⟨some Pos.head⟩ ⟨none⟩ rfl⟩

/-- C10: on a skiplist storing two or more items that compare equal to
`x`, one `Delete x` removes exactly one of them — the length and the
count of equal stored items each drop by exactly one — and a
subsequent `Get` with an equal probe still returns an equal item. -/
theorem C10_delete_one_duplicate {α : Type} [Inhabited α]
    {lt : α → α → Bool} (hl : LawfulLess lt) {sl : SkipList α}
    (hw : Wf lt sl) (x : α)
    (hcnt : 2 ≤ (contents sl).countP (fun y => equal lt y x)) :
    (Delete lt sl x).2.length = sl.length - 1
    ∧ (contents (Delete lt sl x).2).countP (fun y => equal lt y x)
        = (contents sl).countP (fun y => equal lt y x) - 1
    ∧ ∃ z, Get lt (Delete lt sl x).2 x = some z ∧ equal lt z x = true := by
  have hpres : ∃ y ∈ contents sl, equal lt y x = true :=
    List.countP_pos.mp (by omega)
  obtain ⟨z, _, _, hwf, hlen, _, hcont⟩ := Delete_found_spec hl hw x hpres
  obtain ⟨j0, tl, hdw, heqj⟩ := delete_presence hl hw x hpres
  have hdrop_items : (contents sl).dropWhile (fun y => lt y x)
      = itemAt sl j0 :: (tl.map (itemAt sl)) := by
    show ((chainL sl 0).map (itemAt sl)).dropWhile (fun y => lt y x)
      = itemAt sl j0 :: (tl.map (itemAt sl))
    rw [List.dropWhile_map]
    show (List.dropWhile (fun j => lt (itemAt sl j) x) (chainL sl 0)).map (itemAt sl)
      = _
    rw [hdw]
    rfl
  have hsplitc : contents sl
      = (contents sl).takeWhile (fun y => lt y x)
        ++ (contents sl).dropWhile (fun y => lt y x) :=
    (List.takeWhile_append_dropWhile _ _).symm
  have htake0 : ((contents sl).takeWhile (fun y => lt y x)).countP
      (fun y => equal lt y x) = 0 := by
    refine List.countP_eq_zero.mpr ?_
    intro a ha
    have hlt : lt a x = true :=
      List.mem_takeWhile_imp (p := fun y => lt y x) ha
    simp [equal, hlt]
  have hcnt_split : (contents sl).countP (fun y => equal lt y x)
      = 1 + (tl.map (itemAt sl)).countP (fun y => equal lt y x) := by
    conv_lhs => rw [hsplitc]
    rw [List.countP_append, htake0, hdrop_items,
      List.countP_cons_of_pos (fun y => equal lt y x) _ heqj]
    omega
  have hcount' : (contents (Delete lt sl x).2).countP (fun y => equal lt y x)
      = (contents sl).countP (fun y => equal lt y x) - 1 := by
    rw [hcont, List.countP_append, htake0, hdrop_items, List.tail_cons,
      hcnt_split]
    omega
  refine ⟨hlen, hcount', ?_⟩
  have hpos' : 0 < (contents (Delete lt sl x).2).countP (fun y => equal lt y x) := by
    rw [hcount']
    omega
  exact Get_found hl hwf x (List.countP_pos.mp hpos')

theorem C10_witness :
    LawfulLess natLess ∧ Wf natLess (putSeq natLess 2 [(4, []), (4, [])])
    ∧ 2 ≤ (contents (putSeq natLess 2 [(4, []), (4, [])])).countP
        (fun y => equal natLess y 4)
    ∧ ((Delete natLess (putSeq natLess 2 [(4, []), (4, [])]) 4).2.length
        = (putSeq natLess 2 [(4, []), (4, [])]).length - 1
      ∧ (contents (Delete natLess (putSeq natLess 2 [(4, []), (4, [])]) 4).2).countP
          (fun y => equal natLess y 4)
        = (contents (putSeq natLess 2 [(4, []), (4, [])])).countP
            (fun y => equal natLess y 4) - 1
      ∧ ∃ z, Get natLess (Delete natLess (putSeq natLess 2 [(4, []), (4, [])]) 4).2 4
          = some z ∧ equal natLess z 4 = true) :=
  ⟨lawful_natLess, (putSeq_spec lawful_natLess (by decide) [(4, []), (4, [])]).1,
    by decide,
    C10_delete_one_duplicate lawful_natLess
      (putSeq_spec lawful_natLess (by decide) [(4, []), (4, [])]).1 4 (by decide)⟩

end SkipVerify
